import Mathlib

/-!
Verification of the CSV-splitting tool in `src/main.py`.

The program reads a CSV of competition records, fuzzy-groups near-duplicate
institution names (fuzzywuzzy `process.extractOne` with scorer
`fuzz.token_sort_ratio`, threshold 87), normalizes text columns, and writes an
institution dimension table and a team fact table.

Shallow embedding choices:
* Strings are `List Char` (`Str`); cell values of the loaded table are modeled
  as strings (a CSV file's cells are text, so the pandas `dtype == object`
  guard in the normalization loop holds for every modeled column).
* Python `str` operations (`strip`, `lower`, `upper`, `capitalize`, `split`)
  are modeled for the ASCII range, which covers the data the tool targets
  (fuzzywuzzy is in any case called with `force_ascii=True`: its
  `full_process` discards non-ASCII before scoring).
* `fuzz.token_sort_ratio` is modeled with the python-Levenshtein backend that
  fuzzywuzzy prefers: `ratio = (lensum - ldist) / lensum` with substitutions
  costing 2, i.e. `2 * lcs / lensum`, scaled to 0..100 and rounded with
  Python's round-half-to-even.
* File I/O is out of scope: `save_csv` is modeled from the already-loaded
  table onward (the `try/except` load step only prints and returns).
-/

/-- Python strings, modeled as lists of characters. -/
abbrev Str := List Char

/-- Python `str.lower` on one character (ASCII range). -/
def pyLowerChar (c : Char) : Char :=
  if 65 ≤ c.toNat ∧ c.toNat ≤ 90 then Char.ofNat (c.toNat + 32) else c

/-- Python `str.upper` on one character (ASCII range). -/
def pyUpperChar (c : Char) : Char :=
  if 97 ≤ c.toNat ∧ c.toNat ≤ 122 then Char.ofNat (c.toNat - 32) else c

/-- Python whitespace as recognized by `str.strip()` / `str.split()`
(ASCII range: space, tab, newline, carriage return, vertical tab, form feed). -/
def pyIsSpace (c : Char) : Bool :=
  c.toNat = 32 || c.toNat = 9 || c.toNat = 10 || c.toNat = 13 || c.toNat = 11 || c.toNat = 12

/-- A regex word character (`\w`): letter, digit or underscore (ASCII range).
fuzzywuzzy's `full_process` replaces every non-word character by a space. -/
def isWordChar (c : Char) : Bool :=
  (65 ≤ c.toNat && c.toNat ≤ 90) || (97 ≤ c.toNat && c.toNat ≤ 122) ||
    (48 ≤ c.toNat && c.toNat ≤ 57) || c.toNat = 95

/-- Python `str.lower`. -/
def strLower (s : Str) : Str := s.map pyLowerChar

/-- Python `str.upper`. -/
def strUpper (s : Str) : Str := s.map pyUpperChar

/-- Drop leading Python whitespace (`str.lstrip`). -/
def trimL (s : Str) : Str := s.dropWhile pyIsSpace

/-- Python `str.strip()`: drop leading and trailing whitespace. -/
def pyStrip (s : Str) : Str := (trimL ((trimL s).reverse)).reverse

/-- Python `str.capitalize()`: first character uppercased, the rest lowercased
(ASCII range). -/
def pyCapitalize : Str → Str
  | [] => []
  | c :: cs => pyUpperChar c :: cs.map pyLowerChar

/-- fuzzywuzzy `StringProcessor.replace_non_letters_non_numbers_with_whitespace`:
every non-word character becomes a space. -/
def replaceNonWord (s : Str) : Str := s.map fun c => if isWordChar c then c else ' '

/-- fuzzywuzzy `utils.full_process`: replace non-word characters by spaces,
lowercase, strip. -/
def fullProcess (s : Str) : Str := pyStrip (strLower (replaceNonWord s))

/-- Helper for `pySplit`: `cur` is the current token, reversed. -/
def pySplitAux : Str → Str → List Str
  | [], cur => if cur.isEmpty then [] else [cur.reverse]
  | c :: cs, cur =>
    if pyIsSpace c then
      if cur.isEmpty then pySplitAux cs [] else cur.reverse :: pySplitAux cs []
    else pySplitAux cs (c :: cur)

/-- Python `str.split()` with no argument: split on runs of whitespace,
discarding empty tokens. -/
def pySplit (s : Str) : List Str := pySplitAux s []

/-- Python `<` on strings: lexicographic comparison by code point. -/
def strLt : Str → Str → Bool
  | [], [] => false
  | [], _ :: _ => true
  | _ :: _, [] => false
  | a :: as, b :: bs =>
    if a.toNat < b.toNat then true
    else if b.toNat < a.toNat then false
    else strLt as bs

/-- Insert into a sorted list of strings (used to model Python `sorted`). -/
def insertSorted (x : Str) : List Str → List Str
  | [] => [x]
  | y :: ys => if strLt y x then y :: insertSorted x ys else x :: y :: ys

/-- Python `sorted` on a list of strings: the unique sorted permutation under
the total lexicographic order. -/
def sortStrs : List Str → List Str
  | [] => []
  | x :: xs => insertSorted x (sortStrs xs)

/-- fuzzywuzzy `_process_and_sort`: full-process the string, split it into
tokens, sort them, join with single spaces (the trailing `.strip()` of the
joined string is a no-op because the tokens are nonempty and space-free). -/
def processAndSort (s : Str) : Str :=
  pyStrip (List.intercalate [' '] (sortStrs (pySplit (fullProcess s))))

/-- Fuel-indexed longest-common-subsequence length (structural recursion on
the fuel keeps the definition kernel-reducible).  With fuel at least
`a.length + b.length` the fuel never runs out. -/
def lcsFuel : Nat → Str → Str → Nat
  | 0, _, _ => 0
  | _ + 1, [], _ => 0
  | _ + 1, _ :: _, [] => 0
  | fuel + 1, a :: as, b :: bs =>
    if a = b then lcsFuel fuel as bs + 1
    else max (lcsFuel fuel (a :: as) bs) (lcsFuel fuel as (b :: bs))

/-- Length of the longest common subsequence of two strings.  The
python-Levenshtein distance with substitution cost 2 equals
`a.length + b.length - 2 * lcs a b`. -/
def lcs (a b : Str) : Nat := lcsFuel (a.length + b.length) a b

/-- Python `int(round(num / den))` for nonnegative rationals:
round half to even. -/
def pyRound (num den : Nat) : Nat :=
  if 2 * (num % den) < den then num / den
  else if den < 2 * (num % den) then num / den + 1
  else if (num / den) % 2 = 0 then num / den else num / den + 1

/-- fuzzywuzzy `fuzz.ratio` (python-Levenshtein backend): the similarity
`(lensum - ldist) / lensum = 2 * lcs / lensum` scaled to 0..100 and rounded;
100 when both strings are empty. -/
def levScore (p q : Str) : Nat :=
  if p.length + q.length = 0 then 100
  else pyRound (200 * lcs p q) (p.length + q.length)

/-- fuzzywuzzy `fuzz.token_sort_ratio`: `fuzz.ratio` of the two
processed-and-sorted strings. -/
def tokenSortScore (a b : Str) : Nat := levScore (processAndSort a) (processAndSort b)


/-- One step of the running maximum inside `extractOne`: a later choice
replaces the current best only with a strictly greater score (Python's `max`
keeps the first maximal element). -/
def bestStep (scorer : Str → Str → Nat) (query : Str) (best : Str × Nat) (ch : Str) :
    Str × Nat :=
  if best.2 < scorer query ch then (ch, scorer query ch) else best

/-- fuzzywuzzy `process.extractOne(query, choices, scorer=...)`: score every
choice and return the best `(choice, score)` pair, the earliest choice winning
ties.  `none` only on an empty choice list. -/
def extractOne (scorer : Str → Str → Nat) (query : Str) : List Str → Option (Str × Nat)
  | [] => none
  | c :: cs => some (cs.foldl (bestStep scorer query) (c, scorer query c))

/-- The similarity threshold of `fuzzy_grouping` (`threshold=87`). -/
def threshold : Nat := 87

/-- One iteration of the loop in `fuzzy_grouping` (src/main.py lines 36-48):
`acc` is the `grouped_names` dict as an insertion-ordered association list and
`name` the next unique institution name. -/
def groupStep (acc : List (Str × Str)) (name : Str) : List (Str × Str) :=
  if acc.isEmpty then [(name, name)]
  else
    match extractOne tokenSortScore name (acc.map Prod.fst) with
    | none => acc ++ [(name, name)]
    | some (m, score) =>
      if threshold < score then
        acc ++ [(name, (acc.lookup m).getD m)]
      else acc ++ [(name, name)]

/-- The `grouped_names` dictionary built by `fuzzy_grouping` (src/main.py lines
29-48) from the ordered list of unique institution names. -/
def fuzzy_grouping (names : List Str) : List (Str × Str) :=
  names.foldl groupStep []

/-- Helper for `firstUniques`: `seen` holds the values already emitted. -/
def firstUniquesAux : List Str → List Str → List Str
  | [], _ => []
  | x :: xs, seen =>
    if x ∈ seen then firstUniquesAux xs seen
    else x :: firstUniquesAux xs (x :: seen)

/-- pandas `Series.unique()`: the distinct values in order of first
occurrence. -/
def firstUniques (l : List Str) : List Str := firstUniquesAux l []

/-- The US state abbreviation table (src/main.py lines 12-26). -/
def state_abbreviations : List (Str × Str) :=
  [("AL".toList, "Alabama".toList), ("AK".toList, "Alaska".toList),
   ("AZ".toList, "Arizona".toList), ("AR".toList, "Arkansas".toList),
   ("CA".toList, "California".toList), ("CO".toList, "Colorado".toList),
   ("CT".toList, "Connecticut".toList), ("DE".toList, "Delaware".toList),
   ("FL".toList, "Florida".toList), ("GA".toList, "Georgia".toList),
   ("HI".toList, "Hawaii".toList), ("ID".toList, "Idaho".toList),
   ("IL".toList, "Illinois".toList), ("IN".toList, "Indiana".toList),
   ("IA".toList, "Iowa".toList), ("KS".toList, "Kansas".toList),
   ("KY".toList, "Kentucky".toList), ("LA".toList, "Louisiana".toList),
   ("ME".toList, "Maine".toList), ("MD".toList, "Maryland".toList),
   ("MA".toList, "Massachusetts".toList), ("MI".toList, "Michigan".toList),
   ("MN".toList, "Minnesota".toList), ("MS".toList, "Mississippi".toList),
   ("MO".toList, "Missouri".toList), ("MT".toList, "Montana".toList),
   ("NE".toList, "Nebraska".toList), ("NV".toList, "Nevada".toList),
   ("NH".toList, "New Hampshire".toList), ("NJ".toList, "New Jersey".toList),
   ("NM".toList, "New Mexico".toList), ("NY".toList, "New York".toList),
   ("NC".toList, "North Carolina".toList), ("ND".toList, "North Dakota".toList),
   ("OH".toList, "Ohio".toList), ("OK".toList, "Oklahoma".toList),
   ("OR".toList, "Oregon".toList), ("PA".toList, "Pennsylvania".toList),
   ("RI".toList, "Rhode Island".toList), ("SC".toList, "South Carolina".toList),
   ("SD".toList, "South Dakota".toList), ("TN".toList, "Tennessee".toList),
   ("TX".toList, "Texas".toList), ("UT".toList, "Utah".toList),
   ("VT".toList, "Vermont".toList), ("VA".toList, "Virginia".toList),
   ("WA".toList, "Washington".toList), ("WV".toList, "West Virginia".toList),
   ("WI".toList, "Wisconsin".toList), ("WY".toList, "Wyoming".toList)]

/-- The per-cell State/Province normalization (src/main.py lines 82-83):
strip, then `state_abbreviations[x.upper()] if x.upper() in
state_abbreviations and len(x) == 2 else x`. -/
def normalizeState (s : Str) : Str :=
  let x := pyStrip s
  match state_abbreviations.lookup (strUpper x) with
  | some full => if x.length = 2 then full else x
  | none => x

/-- The per-cell normalization of every other text column except Country
(src/main.py line 86): `.str.strip().str.capitalize()`. -/
def normText (s : Str) : Str := pyCapitalize (pyStrip s)

/-- One raw input record with the eight required columns; `none` in
State/Province models a missing (NaN) cell, which is the only missing value
the program treats specially (`fillna` on line 76). -/
structure Row where
  institution : Str
  city : Str
  stateProvince : Option Str
  country : Str
  teamNumber : Str
  advisor : Str
  problem : Str
  ranking : Str
deriving DecidableEq, Repr

/-- A row after fuzzy grouping (line 73), `fillna` (line 76) and the
normalization loop (lines 78-86). -/
structure NRow where
  institution : Str
  grouped : Str
  city : Str
  stateProvince : Str
  country : Str
  teamNumber : Str
  advisor : Str
  problem : Str
  ranking : Str
deriving DecidableEq, Repr

/-- The ordered distinct raw institution names
(`dataframe[column_name].unique()`, line 31). -/
def instNames (rows : List Row) : List Str := firstUniques (rows.map Row.institution)

/-- The grouping map applied to a raw institution name
(`dataframe[column_name].map(grouped_names)`, line 51).  The keys of
`grouped_names` cover every unique name of the column, so the `getD` default
is never used on the column's values. -/
def gmapOf (rows : List Row) (n : Str) : Str :=
  ((fuzzy_grouping (instNames rows)).lookup n).getD n

/-- The image of one raw row under lines 73-86 of src/main.py: the Grouped
Institution cell comes from the grouping map, missing State/Province is
filled with "Unknown" before its normalization, every other text column is
stripped and capitalized -- except Country, which is left untouched. -/
def nrowOf (rows : List Row) (r : Row) : NRow :=
  { institution := normText r.institution
    grouped := normText (gmapOf rows r.institution)
    city := normText r.city
    stateProvince := normalizeState (r.stateProvince.getD "Unknown".toList)
    country := r.country
    teamNumber := normText r.teamNumber
    advisor := normText r.advisor
    problem := normText r.problem
    ranking := normText r.ranking }

/-- Lines 73-86 of src/main.py: add the Grouped Institution column, fill
missing State/Province with "Unknown", then normalize every text column
except Country (the Grouped Institution column is a text column, so the loop
strips and capitalizes it too). -/
def processTable (rows : List Row) : List NRow := rows.map (nrowOf rows)

/-- One row of the institution dimension
(`Institution ID, Institution Name, City, State/Province, Country`). -/
structure InstRow where
  id : Nat
  name : Str
  city : Str
  stateProvince : Str
  country : Str
deriving DecidableEq, Repr

/-- `drop_duplicates(subset=['Grouped Institution'])` (line 89-90): keep the
first row for each distinct Grouped Institution value; `seen` holds the
values already kept. -/
def dropDupRows : List NRow → List Str → List NRow
  | [], _ => []
  | r :: rs, seen =>
    if r.grouped ∈ seen then dropDupRows rs seen
    else r :: dropDupRows rs (r.grouped :: seen)

/-- Lines 88-94 of src/main.py: deduplicate on Grouped Institution, reset the
index and use it as the 0-based Institution ID, rename Grouped Institution to
Institution Name. -/
def institutions (nrows : List NRow) : List InstRow :=
  (dropDupRows nrows []).enum.map fun p =>
    { id := p.1, name := p.2.grouped, city := p.2.city
      stateProvince := p.2.stateProvince, country := p.2.country }

/-- One row of the team fact table
(`Team Number, Advisor, Problem, Ranking, Institution ID`). -/
structure TeamRow where
  teamNumber : Str
  advisor : Str
  problem : Str
  ranking : Str
  institutionId : Option Nat
deriving DecidableEq, Repr

/-- Lines 100-104 of src/main.py: left-join the team columns on
`Institution = Institution Name`.  The join key is the normalized raw
`Institution` column, not `Grouped Institution`; a row with no match keeps a
missing (`none`) Institution ID.  The Institution Name column of the
dimension is duplicate-free, so each row has at most one match and `find?`
returns it. -/
def teamRowOf (insts : List InstRow) (r : NRow) : TeamRow :=
  { teamNumber := r.teamNumber, advisor := r.advisor, problem := r.problem
    ranking := r.ranking
    institutionId := (insts.find? (fun ir => ir.name == r.institution)).map InstRow.id }

def teamRows (nrows : List NRow) (insts : List InstRow) : List TeamRow :=
  nrows.map (teamRowOf insts)

/-- The loaded CSV: its header and its parsed records.  The records are only
meaningful when all required columns are present; validation runs first. -/
structure Csv where
  columns : List String
  rows : List Row

/-- The outcome of `save_csv` after a successful load: either the schema
validation fails (the message lists the missing required columns and nothing
is written), or both output tables are produced. -/
inductive SaveResult where
  | missingColumns (missing : List String)
  | success (insts : List InstRow) (teams : List TeamRow)
deriving DecidableEq

/-- The required headers (src/main.py lines 65-66). -/
def requiredColumns : List String :=
  ["Institution", "City", "State/Province", "Country", "Team Number",
   "Advisor", "Problem", "Ranking"]

/-- Lines 64-108 of src/main.py, from the loaded table onward: validate the
required columns (abort with the set of missing names when any is absent),
then group, normalize, split and emit both tables. -/
def save_csv (c : Csv) : SaveResult :=
  let missing := requiredColumns.filter fun col => !(c.columns.contains col)
  if missing.isEmpty then
    let nr := processTable c.rows
    let insts := institutions nr
    SaveResult.success insts (teamRows nr insts)
  else SaveResult.missingColumns missing

/-! ### Character-level facts (ASCII case arithmetic) -/

theorem char_toNat_ofNat (n : Nat) (h : n ≤ 200) : (Char.ofNat n).toNat = n := by
  have hv : n.isValidChar := Or.inl (by omega)
  unfold Char.ofNat
  rw [dif_pos hv]
  unfold Char.ofNatAux Char.toNat
  simp [UInt32.toNat, BitVec.toNat_ofNatLt]

theorem char_toNat_inj {c d : Char} (h : c.toNat = d.toNat) : c = d := by
  apply Char.eq_of_val_eq
  apply UInt32.eq_of_toBitVec_eq
  exact BitVec.toNat_injective h

theorem toNat_pyLowerChar (c : Char) :
    (pyLowerChar c).toNat = if 65 ≤ c.toNat ∧ c.toNat ≤ 90 then c.toNat + 32 else c.toNat := by
  unfold pyLowerChar
  by_cases h : 65 ≤ c.toNat ∧ c.toNat ≤ 90
  · rw [if_pos h, if_pos h, char_toNat_ofNat _ (by omega)]
  · rw [if_neg h, if_neg h]

theorem toNat_pyUpperChar (c : Char) :
    (pyUpperChar c).toNat = if 97 ≤ c.toNat ∧ c.toNat ≤ 122 then c.toNat - 32 else c.toNat := by
  unfold pyUpperChar
  by_cases h : 97 ≤ c.toNat ∧ c.toNat ≤ 122
  · rcases h with ⟨h1, h2⟩
    rw [if_pos ⟨h1, h2⟩, if_pos ⟨h1, h2⟩, char_toNat_ofNat _ (by omega)]
  · rw [if_neg h, if_neg h]

theorem pyLowerChar_pyUpperChar (c : Char) : pyLowerChar (pyUpperChar c) = pyLowerChar c := by
  apply char_toNat_inj
  simp only [toNat_pyLowerChar, toNat_pyUpperChar]
  split_ifs <;> omega

theorem pyLowerChar_pyLowerChar (c : Char) : pyLowerChar (pyLowerChar c) = pyLowerChar c := by
  apply char_toNat_inj
  simp only [toNat_pyLowerChar]
  split_ifs <;> omega

theorem pyUpperChar_pyUpperChar (c : Char) : pyUpperChar (pyUpperChar c) = pyUpperChar c := by
  apply char_toNat_inj
  simp only [toNat_pyUpperChar]
  split_ifs <;> omega

theorem isWordChar_pyLowerChar (c : Char) : isWordChar (pyLowerChar c) = isWordChar c := by
  have ht := toNat_pyLowerChar c
  rw [Bool.eq_iff_iff]
  simp only [isWordChar, Bool.or_eq_true, Bool.and_eq_true, decide_eq_true_eq, ht]
  split_ifs <;> omega

theorem pyIsSpace_pyLowerChar (c : Char) : pyIsSpace (pyLowerChar c) = pyIsSpace c := by
  have ht := toNat_pyLowerChar c
  rw [Bool.eq_iff_iff]
  simp only [pyIsSpace, Bool.or_eq_true, decide_eq_true_eq, ht]
  split_ifs <;> omega

theorem pyIsSpace_pyUpperChar (c : Char) : pyIsSpace (pyUpperChar c) = pyIsSpace c := by
  have ht := toNat_pyUpperChar c
  rw [Bool.eq_iff_iff]
  simp only [pyIsSpace, Bool.or_eq_true, decide_eq_true_eq, ht]
  split_ifs <;> omega

theorem isWordChar_of_space (c : Char) (h : pyIsSpace c = true) : isWordChar c = false := by
  simp only [pyIsSpace, Bool.or_eq_true, decide_eq_true_eq] at h
  rw [← Bool.not_eq_true]
  simp only [isWordChar, Bool.or_eq_true, Bool.and_eq_true, decide_eq_true_eq]
  omega

/-! ### Trim and strip facts -/

/-- Drop trailing Python whitespace (`str.rstrip`). -/
def trimR (s : Str) : Str := (trimL s.reverse).reverse

theorem pyStrip_eq (s : Str) : pyStrip s = trimR (trimL s) := rfl

theorem dropWhile_idem (p : Char → Bool) (l : Str) :
    (l.dropWhile p).dropWhile p = l.dropWhile p := by
  induction l with
  | nil => rfl
  | cons c cs ih =>
    by_cases h : p c
    · simp only [List.dropWhile_cons, if_pos h]; exact ih
    · simp only [List.dropWhile_cons, if_neg h, if_neg h]

theorem dropWhile_head_false {p : Char → Bool} {l : Str} {c : Char} {cs : Str}
    (h : l.dropWhile p = c :: cs) : p c = false := by
  induction l with
  | nil => simp at h
  | cons d ds ih =>
    by_cases hd : p d
    · rw [List.dropWhile_cons, if_pos hd] at h; exact ih h
    · rw [List.dropWhile_cons, if_neg hd] at h
      injection h with h1 _
      subst h1
      exact Bool.eq_false_iff.mpr hd

theorem trimL_trimL (s : Str) : trimL (trimL s) = trimL s := dropWhile_idem _ _

theorem trimR_trimR (s : Str) : trimR (trimR s) = trimR s := by
  unfold trimR
  rw [List.reverse_reverse, trimL_trimL]

theorem trimL_all_space_append (B y : Str) (hB : ∀ x ∈ B, pyIsSpace x = true) :
    trimL (B ++ y) = trimL y := by
  unfold trimL
  rw [List.dropWhile_append]
  have hb : B.dropWhile pyIsSpace = [] := List.dropWhile_eq_nil_iff.mpr hB
  simp [hb]

theorem trimL_append_nonspace (E : Str) {c : Char} (hc : pyIsSpace c = false) :
    trimL (E ++ [c]) = trimL E ++ [c] := by
  unfold trimL
  rw [List.dropWhile_append]
  by_cases hE : (E.dropWhile pyIsSpace).isEmpty
  · rw [if_pos hE]
    rw [List.isEmpty_iff] at hE
    rw [hE]
    simp [List.dropWhile_cons, hc]
  · rw [if_neg hE]

theorem trimR_append_all_space (y B : Str) (hB : ∀ x ∈ B, pyIsSpace x = true) :
    trimR (y ++ B) = trimR y := by
  unfold trimR
  rw [List.reverse_append, trimL_all_space_append]
  intro x hx
  exact hB x (List.mem_reverse.mp hx)

theorem trimL_trimR_comm (s : Str) : trimL (trimR s) = trimR (trimL s) := by
  rcases h : trimL s with _ | ⟨c, cs⟩
  · have hall : ∀ x ∈ s, pyIsSpace x = true := List.dropWhile_eq_nil_iff.mp h
    have h2 : trimL s.reverse = [] :=
      List.dropWhile_eq_nil_iff.mpr fun x hx => hall x (List.mem_reverse.mp hx)
    unfold trimR
    rw [h2]
    rfl
  · have hc : pyIsSpace c = false := dropWhile_head_false h
    have hs : s = s.takeWhile pyIsSpace ++ (c :: cs) := by
      conv_lhs => rw [← List.takeWhile_append_dropWhile pyIsSpace s]
      rw [show s.dropWhile pyIsSpace = c :: cs from h]
    have htw : ∀ x ∈ s.takeWhile pyIsSpace, pyIsSpace x = true :=
      fun _ hx => List.mem_takeWhile_imp hx
    have hA : trimL (cs.reverse ++ [c]) = trimL cs.reverse ++ [c] :=
      trimL_append_nonspace _ hc
    have hBside : trimL s.reverse =
        (trimL cs.reverse ++ [c]) ++ (s.takeWhile pyIsSpace).reverse := by
      conv_lhs => rw [hs]
      rw [List.reverse_append, List.reverse_cons]
      unfold trimL
      rw [List.dropWhile_append]
      rw [show (cs.reverse ++ [c]).dropWhile pyIsSpace = cs.reverse.dropWhile pyIsSpace ++ [c] from hA]
      rw [if_neg (by simp)]
    have hfix : trimL (c :: (trimL cs.reverse).reverse) = c :: (trimL cs.reverse).reverse := by
      unfold trimL
      rw [List.dropWhile_cons, if_neg (by simp [hc])]
    have hTR : trimR s = s.takeWhile pyIsSpace ++ (c :: (trimL cs.reverse).reverse) := by
      unfold trimR
      rw [hBside, List.reverse_append, List.reverse_append, List.reverse_reverse,
        List.reverse_singleton]
      rfl
    rw [hTR, trimL_all_space_append _ _ htw, hfix]
    unfold trimR
    rw [List.reverse_cons,
      show trimL (cs.reverse ++ [c]) = trimL cs.reverse ++ [c] from hA,
      List.reverse_append, List.reverse_singleton]
    rfl

theorem pyStrip_pyStrip (s : Str) : pyStrip (pyStrip s) = pyStrip s := by
  rw [pyStrip_eq, pyStrip_eq, trimL_trimR_comm, trimR_trimR, trimL_trimL]

theorem pyStrip_eq_trimL_trimR (s : Str) : pyStrip s = trimL (trimR s) := by
  rw [pyStrip_eq, trimL_trimR_comm]

theorem trimL_pyStrip (s : Str) : trimL (pyStrip s) = pyStrip s := by
  rw [pyStrip_eq, trimL_trimR_comm, trimL_trimL]

theorem trimR_pyStrip (s : Str) : trimR (pyStrip s) = pyStrip s := by
  rw [pyStrip_eq, trimR_trimR]

theorem pyStrip_all_space_append (B y : Str) (hB : ∀ x ∈ B, pyIsSpace x = true) :
    pyStrip (B ++ y) = pyStrip y := by
  rw [pyStrip_eq, pyStrip_eq, trimL_all_space_append B y hB]

theorem pyStrip_append_all_space (y B : Str) (hB : ∀ x ∈ B, pyIsSpace x = true) :
    pyStrip (y ++ B) = pyStrip y := by
  rw [pyStrip_eq_trimL_trimR, pyStrip_eq_trimL_trimR, trimR_append_all_space y B hB]

/-! ### Case functions versus trimming, and the `fullProcess` factorization -/

theorem pyLowerChar_space : pyLowerChar ' ' = ' ' := by decide

theorem trimL_strLower (s : Str) : trimL (strLower s) = strLower (trimL s) := by
  unfold trimL strLower
  rw [List.dropWhile_map]
  have : pyIsSpace ∘ pyLowerChar = pyIsSpace := funext pyIsSpace_pyLowerChar
  rw [this]

theorem trimR_strLower (s : Str) : trimR (strLower s) = strLower (trimR s) := by
  unfold trimR
  rw [show (strLower s).reverse = strLower s.reverse from (List.map_reverse _ _).symm,
    trimL_strLower]
  exact (List.map_reverse _ _).symm

theorem pyStrip_strLower (s : Str) : pyStrip (strLower s) = strLower (pyStrip s) := by
  rw [pyStrip_eq, pyStrip_eq, trimL_strLower, trimR_strLower]

theorem strLower_pyCapitalize (y : Str) : strLower (pyCapitalize y) = strLower y := by
  cases y with
  | nil => rfl
  | cons c cs =>
    simp only [pyCapitalize, strLower, List.map_cons, List.map_map]
    rw [pyLowerChar_pyUpperChar]
    congr 1
    exact List.map_congr_left fun a _ => pyLowerChar_pyLowerChar a

/-- The combined per-character action of fuzzywuzzy's `full_process` before
stripping: non-word characters become spaces, the rest is lowercased. -/
def procChar (c : Char) : Char := if isWordChar c then pyLowerChar c else ' '

theorem strLower_replaceNonWord (s : Str) : strLower (replaceNonWord s) = s.map procChar := by
  unfold strLower replaceNonWord procChar
  rw [List.map_map]
  apply List.map_congr_left
  intro c _
  by_cases h : isWordChar c
  · simp [Function.comp, h]
  · simp [Function.comp, h, pyLowerChar_space]

theorem procChar_pyLowerChar (c : Char) : procChar (pyLowerChar c) = procChar c := by
  unfold procChar
  rw [isWordChar_pyLowerChar]
  by_cases h : isWordChar c
  · rw [if_pos h, if_pos h, pyLowerChar_pyLowerChar]
  · rw [if_neg h, if_neg h]

theorem procChar_of_space {c : Char} (h : pyIsSpace c = true) : procChar c = ' ' := by
  unfold procChar
  rw [isWordChar_of_space c h]
  simp

theorem fullProcess_eq_map (s : Str) : fullProcess s = pyStrip (s.map procChar) := by
  unfold fullProcess
  rw [strLower_replaceNonWord]

theorem pyStrip_map_procChar (s : Str) :
    pyStrip (s.map procChar) = pyStrip ((pyStrip s).map procChar) := by
  conv_lhs => rw [← List.takeWhile_append_dropWhile pyIsSpace s]
  rw [List.map_append, pyStrip_all_space_append _ _ (by
    intro x hx
    rcases List.mem_map.mp hx with ⟨y, hy, rfl⟩
    rw [procChar_of_space (List.mem_takeWhile_imp hy)]
    decide)]
  have hdec : s.dropWhile pyIsSpace = pyStrip s ++ ((trimL s).reverse.takeWhile pyIsSpace).reverse := by
    conv_lhs => rw [show s.dropWhile pyIsSpace = trimL s from rfl,
      ← List.reverse_reverse (trimL s),
      ← List.takeWhile_append_dropWhile pyIsSpace (trimL s).reverse]
    rw [List.reverse_append]
    rfl
  rw [hdec, List.map_append, pyStrip_append_all_space _ _ (by
    intro x hx
    rcases List.mem_map.mp hx with ⟨y, hy, rfl⟩
    rw [procChar_of_space (List.mem_takeWhile_imp (List.mem_reverse.mp hy))]
    decide)]

theorem fullProcess_factor (s : Str) : fullProcess s = fullProcess (strLower (pyStrip s)) := by
  rw [fullProcess_eq_map, fullProcess_eq_map]
  rw [show (strLower (pyStrip s)).map procChar = (pyStrip s).map procChar by
    unfold strLower
    rw [List.map_map]
    exact List.map_congr_left fun a _ => procChar_pyLowerChar a]
  exact pyStrip_map_procChar s

theorem fullProcess_congr {a b : Str} (h : strLower (pyStrip a) = strLower (pyStrip b)) :
    fullProcess a = fullProcess b := by
  rw [fullProcess_factor a, fullProcess_factor b, h]

/-! ### `normText` (strip + capitalize) facts -/

theorem lowStrip_normText (x : Str) :
    strLower (pyStrip (normText x)) = strLower (pyStrip x) := by
  unfold normText
  rw [← pyStrip_strLower, strLower_pyCapitalize, pyStrip_strLower, pyStrip_pyStrip]

theorem fullProcess_normText (x : Str) : fullProcess (normText x) = fullProcess x :=
  fullProcess_congr (lowStrip_normText x)

theorem lowStrip_of_normText_eq {a b : Str} (h : normText a = normText b) :
    strLower (pyStrip a) = strLower (pyStrip b) := by
  have ha := lowStrip_normText a
  have hb := lowStrip_normText b
  rw [← ha, ← hb, h]

theorem tokenSortScore_congr_left {a b : Str}
    (h : strLower (pyStrip a) = strLower (pyStrip b)) (x : Str) :
    tokenSortScore a x = tokenSortScore b x := by
  unfold tokenSortScore processAndSort
  rw [fullProcess_congr h]

theorem tokenSortScore_normText (a b : Str) :
    tokenSortScore (normText a) (normText b) = tokenSortScore a b := by
  unfold tokenSortScore processAndSort
  rw [fullProcess_normText, fullProcess_normText]

theorem length_trimL_le (s : Str) : (trimL s).length ≤ s.length := by
  induction s with
  | nil => simp [trimL]
  | cons c cs ih =>
    by_cases h : pyIsSpace c
    · simp only [trimL, List.dropWhile_cons, if_pos h]
      simp only [trimL] at ih
      simp [List.length_cons]
      omega
    · simp [trimL, List.dropWhile_cons, if_neg h]

theorem head_nonspace_of_trimL_self {c : Char} {cs : Str} (h : trimL (c :: cs) = c :: cs) :
    pyIsSpace c = false := by
  by_cases hsp : pyIsSpace c
  · exfalso
    rw [show trimL (c :: cs) = trimL cs by
      unfold trimL; rw [List.dropWhile_cons, if_pos hsp]] at h
    have hle := length_trimL_le cs
    rw [h] at hle
    simp at hle
  · exact Bool.eq_false_iff.mpr hsp

theorem append_singleton_cancel {X Y : Str} {c : Char} (h : X ++ [c] = Y ++ [c]) : X = Y := by
  have h1 := congrArg List.reverse h
  rw [List.reverse_append, List.reverse_append, List.reverse_singleton,
    List.singleton_append, List.singleton_append] at h1
  injection h1 with _ h2
  have h3 := congrArg List.reverse h2
  rwa [List.reverse_reverse, List.reverse_reverse] at h3

theorem trimL_pyCapitalize_of_self {y : Str} (h : trimL y = y) :
    trimL (pyCapitalize y) = pyCapitalize y := by
  cases y with
  | nil => rfl
  | cons c cs =>
    have hc : pyIsSpace c = false := head_nonspace_of_trimL_self h
    show trimL (pyUpperChar c :: strLower cs) = pyUpperChar c :: strLower cs
    unfold trimL
    rw [List.dropWhile_cons, if_neg (by rw [pyIsSpace_pyUpperChar, hc]; simp)]

theorem trimR_pyCapitalize_of_self {y : Str} (hL : trimL y = y) (hR : trimR y = y) :
    trimR (pyCapitalize y) = pyCapitalize y := by
  cases y with
  | nil => rfl
  | cons c cs =>
    have hc : pyIsSpace c = false := head_nonspace_of_trimL_self hL
    have h1 : trimL (cs.reverse ++ [c]) = cs.reverse ++ [c] := by
      have h0 := hR
      unfold trimR at h0
      rw [List.reverse_cons] at h0
      have h2 := congrArg List.reverse h0
      rwa [List.reverse_reverse, List.reverse_cons] at h2
    have h3 : trimL cs.reverse = cs.reverse := by
      rw [trimL_append_nonspace _ hc] at h1
      exact append_singleton_cancel h1
    show trimR (pyUpperChar c :: strLower cs) = pyUpperChar c :: strLower cs
    unfold trimR
    rw [List.reverse_cons,
      show (strLower cs).reverse = strLower cs.reverse from (List.map_reverse _ _).symm,
      trimL_append_nonspace _ (by rw [pyIsSpace_pyUpperChar]; exact hc),
      trimL_strLower, h3, List.reverse_append, List.reverse_singleton,
      show (strLower cs.reverse).reverse = strLower cs by
        unfold strLower
        rw [← List.map_reverse, List.reverse_reverse]]
    rfl

theorem pyStrip_pyCapitalize_pyStrip (x : Str) :
    pyStrip (pyCapitalize (pyStrip x)) = pyCapitalize (pyStrip x) := by
  rw [pyStrip_eq,
    trimL_pyCapitalize_of_self (trimL_pyStrip x),
    trimR_pyCapitalize_of_self (trimL_pyStrip x) (trimR_pyStrip x)]

theorem pyCapitalize_pyCapitalize (y : Str) :
    pyCapitalize (pyCapitalize y) = pyCapitalize y := by
  cases y with
  | nil => rfl
  | cons c cs =>
    show pyCapitalize (pyUpperChar c :: strLower cs) = _
    simp only [pyCapitalize]
    rw [pyUpperChar_pyUpperChar]
    congr 1
    show strLower (strLower cs) = strLower cs
    unfold strLower
    rw [List.map_map]
    exact List.map_congr_left fun a _ => pyLowerChar_pyLowerChar a

theorem normText_normText (x : Str) : normText (normText x) = normText x := by
  unfold normText
  rw [pyStrip_pyCapitalize_pyStrip, pyCapitalize_pyCapitalize]

/-! ### Score arithmetic: `lcs`, `pyRound`, bounds -/

theorem lcsFuel_self : ∀ (f : Nat) (s : Str), s.length ≤ f → lcsFuel f s s = s.length := by
  intro f
  induction f with
  | zero =>
    intro s h
    cases s with
    | nil => rfl
    | cons c cs => simp at h
  | succ n ih =>
    intro s h
    cases s with
    | nil => rfl
    | cons c cs =>
      simp only [lcsFuel, if_pos rfl]
      rw [ih cs (by simp [List.length_cons] at h; omega)]
      simp [List.length_cons]

theorem lcsFuel_le : ∀ (f : Nat) (a b : Str), lcsFuel f a b ≤ a.length ∧ lcsFuel f a b ≤ b.length := by
  intro f
  induction f with
  | zero =>
    intro a b
    cases a <;> cases b <;> simp [lcsFuel]
  | succ n ih =>
    intro a b
    cases a with
    | nil => simp [lcsFuel]
    | cons x xs =>
      cases b with
      | nil => simp [lcsFuel]
      | cons y ys =>
        simp only [lcsFuel]
        by_cases h : x = y
        · rw [if_pos h]
          have hxy := ih xs ys
          simp only [List.length_cons]
          omega
        · rw [if_neg h]
          have h1 := ih (x :: xs) ys
          have h2 := ih xs (y :: ys)
          simp only [List.length_cons] at h1 h2 ⊢
          omega

theorem lcs_self (s : Str) : lcs s s = s.length :=
  lcsFuel_self _ s (by omega)

theorem lcs_le_left (a b : Str) : lcs a b ≤ a.length := (lcsFuel_le _ a b).1

theorem lcs_le_right (a b : Str) : lcs a b ≤ b.length := (lcsFuel_le _ a b).2

theorem pyRound_le_100 (num den : Nat) (h : num ≤ 100 * den) (hden : 0 < den) :
    pyRound num den ≤ 100 := by
  have hq : num / den ≤ 100 := by
    calc num / den ≤ 100 * den / den := Nat.div_le_div_right h
    _ = 100 := Nat.mul_div_cancel 100 hden
  have hdm : den * (num / den) + num % den = num := Nat.div_add_mod num den
  have hr : num % den < den := Nat.mod_lt _ hden
  unfold pyRound
  rcases Nat.lt_or_ge (num / den) 100 with hlt | hge
  · split_ifs <;> omega
  · have h100 : num / den = 100 := Nat.le_antisymm hq hge
    rw [h100] at hdm
    split_ifs <;> omega

theorem levScore_self (p : Str) : levScore p p = 100 := by
  unfold levScore
  by_cases h : p.length + p.length = 0
  · rw [if_pos h]
  · rw [if_neg h, lcs_self]
    have hpos : 0 < p.length := by omega
    have he : 200 * p.length = 100 * (p.length + p.length) := by ring
    unfold pyRound
    rw [he, Nat.mul_div_cancel 100 (by omega), Nat.mul_mod_left]
    rw [if_pos (by omega)]

theorem levScore_le_100 (p q : Str) : levScore p q ≤ 100 := by
  unfold levScore
  by_cases h : p.length + q.length = 0
  · rw [if_pos h]
  · rw [if_neg h]
    apply pyRound_le_100
    · have h1 := lcs_le_left p q
      have h2 := lcs_le_right p q
      omega
    · omega

theorem tokenSortScore_eq_100 (a b : Str) (h : fullProcess a = fullProcess b) :
    tokenSortScore a b = 100 := by
  unfold tokenSortScore processAndSort
  rw [h]
  exact levScore_self _

theorem tokenSortScore_le_100 (a b : Str) : tokenSortScore a b ≤ 100 :=
  levScore_le_100 _ _

/-! ### Association list helpers -/

theorem lookup_isSome_of_mem_keys {l : List (Str × Str)} {k : Str}
    (h : k ∈ l.map Prod.fst) : (l.lookup k).isSome := by
  induction l with
  | nil => simp at h
  | cons p ps ih =>
    obtain ⟨a, b⟩ := p
    rw [List.map_cons, List.mem_cons] at h
    rw [List.lookup_cons]
    rcases hbe : k == a with _ | _
    · rcases h with h | h
      · rw [h] at hbe
        simp at hbe
      · exact ih h
    · simp

theorem lookup_eq_none_of_not_mem_keys {l : List (Str × Str)} {k : Str}
    (h : k ∉ l.map Prod.fst) : l.lookup k = none := by
  induction l with
  | nil => rfl
  | cons p ps ih =>
    obtain ⟨a, b⟩ := p
    rw [List.map_cons, List.mem_cons] at h
    push_neg at h
    rw [List.lookup_cons]
    rcases hbe : k == a with _ | _
    · exact ih h.2
    · exact absurd (by simpa using hbe) h.1

theorem mem_keys_of_lookup_some {l : List (Str × Str)} {k v : Str}
    (h : l.lookup k = some v) : k ∈ l.map Prod.fst := by
  by_contra hk
  rw [lookup_eq_none_of_not_mem_keys hk] at h
  simp at h

theorem mem_of_lookup_some {l : List (Str × Str)} {k v : Str}
    (h : l.lookup k = some v) : (k, v) ∈ l := by
  induction l with
  | nil => simp at h
  | cons p ps ih =>
    obtain ⟨a, b⟩ := p
    rw [List.lookup_cons] at h
    rcases hbe : k == a with _ | _
    · rw [hbe] at h
      exact List.mem_cons_of_mem _ (ih h)
    · rw [hbe] at h
      have hk : k = a := by simpa using hbe
      have hv : b = v := by simpa using h
      rw [← hk, hv]
      exact List.mem_cons_self _ _

theorem lookup_append_isSome {l₁ l₂ : List (Str × Str)} {k : Str}
    (h : (l₁.lookup k).isSome) : (l₁ ++ l₂).lookup k = l₁.lookup k := by
  rw [List.lookup_append]
  exact Option.or_of_isSome h

theorem lookup_append_of_not_mem {l₁ l₂ : List (Str × Str)} {k : Str}
    (h : k ∉ l₁.map Prod.fst) : (l₁ ++ l₂).lookup k = l₂.lookup k := by
  rw [List.lookup_append, lookup_eq_none_of_not_mem_keys h]
  rfl

theorem lookup_singleton_self (k v : Str) : ([(k, v)] : List (Str × Str)).lookup k = some v := by
  rw [List.lookup_cons]
  simp

/-! ### `extractOne` as a first-maximum selection (over an abstract scorer) -/

theorem foldl_bestStep_spec (f : Str → Str → Nat) (q : Str) :
    ∀ (cs : List Str) (best : Str × Nat),
      (cs.foldl (bestStep f q) best = best ∨
        ((cs.foldl (bestStep f q) best).1 ∈ cs ∧
          (cs.foldl (bestStep f q) best).2 = f q (cs.foldl (bestStep f q) best).1)) ∧
      best.2 ≤ (cs.foldl (bestStep f q) best).2 ∧
      ∀ c ∈ cs, f q c ≤ (cs.foldl (bestStep f q) best).2 := by
  intro cs
  induction cs with
  | nil => exact fun best => ⟨Or.inl rfl, le_refl _, by simp⟩
  | cons ch cs' ih =>
    intro best
    rw [List.foldl_cons]
    by_cases h : best.2 < f q ch
    · rw [show bestStep f q best ch = (ch, f q ch) from by
        unfold bestStep; rw [if_pos h]]
      obtain ⟨hc, hi, ha⟩ := ih (ch, f q ch)
      have hi2 : f q ch ≤ (cs'.foldl (bestStep f q) (ch, f q ch)).2 := hi
      refine ⟨?_, by omega, ?_⟩
      · rcases hc with hc | hc
        · right
          rw [hc]
          exact ⟨List.mem_cons_self _ _, rfl⟩
        · exact Or.inr ⟨List.mem_cons_of_mem _ hc.1, hc.2⟩
      · intro c hc'
        rcases List.mem_cons.mp hc' with rfl | hmem
        · exact hi2
        · exact ha c hmem
    · rw [show bestStep f q best ch = best from by unfold bestStep; rw [if_neg h]]
      obtain ⟨hc, hi, ha⟩ := ih best
      refine ⟨?_, hi, ?_⟩
      · rcases hc with hc | hc
        · exact Or.inl hc
        · exact Or.inr ⟨List.mem_cons_of_mem _ hc.1, hc.2⟩
      · intro c hc'
        rcases List.mem_cons.mp hc' with rfl | hmem
        · omega
        · exact ha c hmem

theorem extractOne_spec {f : Str → Str → Nat} {q m : Str} {s : Nat} {cs : List Str}
    (h : extractOne f q cs = some (m, s)) :
    m ∈ cs ∧ s = f q m ∧ ∀ c ∈ cs, f q c ≤ s := by
  cases cs with
  | nil => simp [extractOne] at h
  | cons c cs' =>
    simp only [extractOne, Option.some.injEq] at h
    obtain ⟨hc, hi, ha⟩ := foldl_bestStep_spec f q cs' (c, f q c)
    rw [h] at hc hi ha
    have hi' : f q c ≤ s := hi
    rcases hc with heq | ⟨h1, h2⟩
    · have hm : m = c := congrArg Prod.fst heq
      have hs2 : s = f q c := congrArg Prod.snd heq
      subst hm
      refine ⟨List.mem_cons_self _ _, hs2, ?_⟩
      intro x hx
      rcases List.mem_cons.mp hx with rfl | hmem
      · exact hi'
      · exact ha x hmem
    · refine ⟨List.mem_cons_of_mem _ h1, h2, ?_⟩
      intro x hx
      rcases List.mem_cons.mp hx with rfl | hmem
      · exact hi'
      · exact ha x hmem

theorem foldl_bestStep_stay (f : Str → Str → Nat) (q : Str) :
    ∀ (cs : List Str) (best : Str × Nat),
      (∀ c ∈ cs, f q c ≤ best.2) →
      cs.foldl (bestStep f q) best = best := by
  intro cs
  induction cs with
  | nil => intro best _; rfl
  | cons ch cs' ih =>
    intro best hall
    rw [List.foldl_cons, show bestStep f q best ch = best from by
      unfold bestStep
      rw [if_neg (by have := hall ch (List.mem_cons_self _ _); omega)]]
    exact ih best fun c hc => hall c (List.mem_cons_of_mem _ hc)

theorem foldl_bestStep_climb (f : Str → Str → Nat) (q g : Str) (post : List Str) :
    ∀ (pre : List Str) (best : Str × Nat),
      (∀ k ∈ pre, f q k < f q g) →
      best.2 < f q g →
      (pre ++ g :: post).foldl (bestStep f q) best =
        post.foldl (bestStep f q) (g, f q g) := by
  intro pre
  induction pre with
  | nil =>
    intro best _ hb
    rw [List.nil_append, List.foldl_cons, show bestStep f q best g = (g, f q g) from by
      unfold bestStep; rw [if_pos hb]]
  | cons p pre' ih =>
    intro best hpre hb
    rw [List.cons_append, List.foldl_cons]
    apply ih
    · exact fun k hk => hpre k (List.mem_cons_of_mem _ hk)
    · unfold bestStep
      by_cases h : best.2 < f q p
      · rw [if_pos h]
        exact hpre p (List.mem_cons_self _ _)
      · rw [if_neg h]
        exact hb

theorem extractOne_first_max {f : Str → Str → Nat} {q : Str} {pre : List Str} {g : Str}
    {post : List Str}
    (hpre : ∀ k ∈ pre, f q k < f q g)
    (hpost : ∀ k ∈ post, f q k ≤ f q g) :
    extractOne f q (pre ++ g :: post) = some (g, f q g) := by
  cases pre with
  | nil =>
    rw [List.nil_append]
    show some (post.foldl (bestStep f q) (g, f q g)) = _
    rw [foldl_bestStep_stay f q post _ fun c hc => hpost c hc]
  | cons p pre' =>
    rw [List.cons_append]
    show some ((pre' ++ g :: post).foldl (bestStep f q) (p, f q p)) = _
    rw [foldl_bestStep_climb f q g post pre' _
        (fun k hk => hpre k (List.mem_cons_of_mem _ hk))
        (hpre p (List.mem_cons_self _ _)),
      foldl_bestStep_stay f q post _ fun c hc => hpost c hc]

/-! ### Structure of `fuzzy_grouping` -/

theorem groupStep_eq_of_extract {acc : List (Str × Str)} {n m : Str} {s : Nat}
    (hne : acc ≠ [])
    (hex : extractOne tokenSortScore n (acc.map Prod.fst) = some (m, s)) :
    groupStep acc n =
      if threshold < s then acc ++ [(n, (acc.lookup m).getD m)] else acc ++ [(n, n)] := by
  unfold groupStep
  rw [if_neg (by simp [List.isEmpty_iff, hne]), hex]

theorem extractOne_cons_ne_none {n p : Str} {rest : List Str} :
    extractOne tokenSortScore n (p :: rest) ≠ none := by
  simp [extractOne]

theorem groupStep_keys (acc : List (Str × Str)) (n : Str) :
    (groupStep acc n).map Prod.fst = acc.map Prod.fst ++ [n] := by
  cases acc with
  | nil => rfl
  | cons p acc' =>
    rcases hex : extractOne tokenSortScore n ((p :: acc').map Prod.fst) with _ | ⟨m, s⟩
    · exact absurd (by rw [List.map_cons] at hex; exact hex) extractOne_cons_ne_none
    · rw [groupStep_eq_of_extract (by simp) hex]
      by_cases hth : threshold < s
      · rw [if_pos hth, List.map_append]
        rfl
      · rw [if_neg hth, List.map_append]
        rfl

theorem groupStep_append (acc : List (Str × Str)) (n : Str) :
    ∃ v, groupStep acc n = acc ++ [(n, v)] := by
  cases acc with
  | nil => exact ⟨n, rfl⟩
  | cons p acc' =>
    rcases hex : extractOne tokenSortScore n ((p :: acc').map Prod.fst) with _ | ⟨m, s⟩
    · exact absurd (by rw [List.map_cons] at hex; exact hex) extractOne_cons_ne_none
    · rw [groupStep_eq_of_extract (by simp) hex]
      by_cases hth : threshold < s
      · exact ⟨_, by rw [if_pos hth]⟩
      · exact ⟨n, by rw [if_neg hth]⟩

theorem foldl_groupStep_extends :
    ∀ (l : List Str) (acc : List (Str × Str)), ∃ ext, l.foldl groupStep acc = acc ++ ext := by
  intro l
  induction l with
  | nil => exact fun acc => ⟨[], by simp⟩
  | cons n l' ih =>
    intro acc
    obtain ⟨v, hv⟩ := groupStep_append acc n
    obtain ⟨ext, hext⟩ := ih (groupStep acc n)
    refine ⟨[(n, v)] ++ ext, ?_⟩
    rw [List.foldl_cons, hext, hv, List.append_assoc]

theorem foldl_groupStep_keys :
    ∀ (l : List Str) (acc : List (Str × Str)),
      (l.foldl groupStep acc).map Prod.fst = acc.map Prod.fst ++ l := by
  intro l
  induction l with
  | nil => intro acc; simp
  | cons n l' ih =>
    intro acc
    rw [List.foldl_cons, ih, groupStep_keys, List.append_assoc]
    rfl

theorem fuzzy_grouping_keys (names : List Str) :
    (fuzzy_grouping names).map Prod.fst = names := by
  unfold fuzzy_grouping
  rw [foldl_groupStep_keys]
  rfl

theorem foldl_groupStep_lookup_preserved (l : List Str) (acc : List (Str × Str)) (k : Str)
    (h : (acc.lookup k).isSome) :
    (l.foldl groupStep acc).lookup k = acc.lookup k := by
  obtain ⟨ext, he⟩ := foldl_groupStep_extends l acc
  rw [he]
  exact lookup_append_isSome h

theorem fuzzy_grouping_decomp (l₁ : List Str) (n : Str) (l₂ : List Str) :
    fuzzy_grouping (l₁ ++ n :: l₂) = l₂.foldl groupStep (groupStep (fuzzy_grouping l₁) n) := by
  unfold fuzzy_grouping
  rw [List.foldl_append, List.foldl_cons]

theorem groupStep_lookup_self {acc : List (Str × Str)} {n v : Str}
    (hv : groupStep acc n = acc ++ [(n, v)]) (h : n ∉ acc.map Prod.fst) :
    (groupStep acc n).lookup n = some v := by
  rw [hv, lookup_append_of_not_mem h, lookup_singleton_self]

theorem fuzzy_grouping_lookup_mid (l₁ : List Str) (n : Str) (l₂ : List Str) :
    (fuzzy_grouping (l₁ ++ n :: l₂)).lookup n = (groupStep (fuzzy_grouping l₁) n).lookup n := by
  rw [fuzzy_grouping_decomp]
  apply foldl_groupStep_lookup_preserved
  apply lookup_isSome_of_mem_keys
  rw [groupStep_keys, fuzzy_grouping_keys]
  simp

theorem fuzzy_grouping_lookup_front {l₁ l₂ : List Str} {k : Str} (h : k ∈ l₁) :
    (fuzzy_grouping (l₁ ++ l₂)).lookup k = (fuzzy_grouping l₁).lookup k := by
  unfold fuzzy_grouping
  rw [List.foldl_append]
  apply foldl_groupStep_lookup_preserved
  apply lookup_isSome_of_mem_keys
  rw [show (List.foldl groupStep [] l₁).map Prod.fst = l₁ from fuzzy_grouping_keys l₁]
  exact h

theorem fuzzy_grouping_lookup_total {names : List Str} {k : Str} (h : k ∈ names) :
    ∃ v, (fuzzy_grouping names).lookup k = some v :=
  Option.isSome_iff_exists.mp
    (lookup_isSome_of_mem_keys (by rw [fuzzy_grouping_keys]; exact h))

theorem snoc_decomp {α : Type} {ns : List α} {x : α} {l₁ : List α} {v : α} {l₂ : List α}
    (h : ns ++ [x] = l₁ ++ v :: l₂) :
    (l₁ = ns ∧ v = x ∧ l₂ = []) ∨ ∃ l₂', l₂ = l₂' ++ [x] ∧ ns = l₁ ++ v :: l₂' := by
  rcases List.eq_nil_or_concat l₂ with rfl | ⟨l₂', b, rfl⟩
  · left
    have hlen : ns.length = l₁.length := by
      have hl := congrArg List.length h
      simp [List.length_append] at hl
      omega
    obtain ⟨h1, h2⟩ := List.append_inj h hlen
    injection h2 with h3 _
    exact ⟨h1.symm, h3.symm, rfl⟩
  · right
    rw [List.concat_eq_append] at h
    rw [show l₁ ++ v :: (l₂' ++ [b]) = (l₁ ++ v :: l₂') ++ [b] by simp] at h
    have hlen : ns.length = (l₁ ++ v :: l₂').length := by
      have hl := congrArg List.length h
      simp [List.length_append] at hl ⊢
      omega
    obtain ⟨h1, h2⟩ := List.append_inj h hlen
    injection h2 with h3 _
    exact ⟨l₂', by rw [List.concat_eq_append, ← h3], h1⟩

theorem extractOne_eq_none_iff {f : Str → Str → Nat} {q : Str} {cs : List Str} :
    extractOne f q cs = none ↔ cs = [] := by
  cases cs <;> simp [extractOne]

/-- The two key invariants of the `grouped_names` dictionary, proved together:
every value maps to itself, and a name mapped to itself (a representative)
scored at most `threshold` against every name processed before it. -/
theorem fuzzy_grouping_inv {names : List Str} (h : names.Nodup) :
    (∀ p ∈ fuzzy_grouping names, (fuzzy_grouping names).lookup p.2 = some p.2) ∧
    (∀ l₁ n l₂, names = l₁ ++ n :: l₂ →
      (fuzzy_grouping names).lookup n = some n →
      ∀ k ∈ l₁, tokenSortScore n k ≤ threshold) := by
  induction names using List.reverseRecOn with
  | nil =>
    constructor
    · intro p hp
      simp [fuzzy_grouping] at hp
    · intro l₁ n l₂ hdec
      exact absurd hdec (by simp)
  | append_singleton ns n ih =>
    have hnodup := List.nodup_append.mp h
    have hns : ns.Nodup := hnodup.1
    have hnot : n ∉ ns := fun hmem => (hnodup.2.2 hmem) (List.mem_singleton.mpr rfl)
    obtain ⟨ihS, ihR⟩ := ih hns
    have hkeys : (fuzzy_grouping ns).map Prod.fst = ns := fuzzy_grouping_keys ns
    have hFG : fuzzy_grouping (ns ++ [n]) = groupStep (fuzzy_grouping ns) n := by
      unfold fuzzy_grouping
      rw [List.foldl_append]
      rfl
    have hnkeys : n ∉ (fuzzy_grouping ns).map Prod.fst := by rw [hkeys]; exact hnot
    have hpres : ∀ k : Str, ((fuzzy_grouping ns).lookup k).isSome →
        (fuzzy_grouping (ns ++ [n])).lookup k = (fuzzy_grouping ns).lookup k := by
      intro k hk
      rw [hFG]
      obtain ⟨v, hv⟩ := groupStep_append (fuzzy_grouping ns) n
      rw [hv]
      exact lookup_append_isSome hk
    have hinside : ∀ l₁ n' l₂', ns = l₁ ++ n' :: l₂' →
        (fuzzy_grouping (ns ++ [n])).lookup n' = some n' →
        ∀ k ∈ l₁, tokenSortScore n' k ≤ threshold := by
      intro l₁ n' l₂' hd hl k hk
      have hn'mem : n' ∈ ns := by
        rw [hd]
        exact List.mem_append_right _ (List.mem_cons_self _ _)
      have hsome : ((fuzzy_grouping ns).lookup n').isSome :=
        lookup_isSome_of_mem_keys (by rw [hkeys]; exact hn'mem)
      rw [hpres n' hsome] at hl
      exact ihR l₁ n' l₂' hd hl k hk
    by_cases hns0 : ns = []
    · subst hns0
      have hstep : fuzzy_grouping (([] : List Str) ++ [n]) = [(n, n)] := by
        rw [hFG]
        rfl
      constructor
      · intro p hp
        rw [hstep] at hp ⊢
        obtain rfl := List.mem_singleton.mp hp
        exact lookup_singleton_self n n
      · intro l₁ n' l₂ hdec hself k hk
        rcases snoc_decomp hdec with ⟨rfl, rfl, rfl⟩ | ⟨l₂', rfl, hd⟩
        · exact absurd hk (List.not_mem_nil k)
        · exact absurd hd (by simp)
    · have hne : fuzzy_grouping ns ≠ [] := by
        intro h0
        rw [h0] at hkeys
        exact hns0 hkeys.symm
      rcases hex : extractOne tokenSortScore n ((fuzzy_grouping ns).map Prod.fst)
        with _ | ⟨m, s⟩
      · exact absurd (by rwa [extractOne_eq_none_iff, hkeys] at hex) hns0
      · have hgs := groupStep_eq_of_extract hne hex
        obtain ⟨hmk, hsv, hall⟩ := extractOne_spec hex
        by_cases hth : threshold < s
        · -- merge branch: n is mapped to the canonical name of the match
          obtain ⟨w, hw⟩ := Option.isSome_iff_exists.mp (lookup_isSome_of_mem_keys hmk)
          have hv' : groupStep (fuzzy_grouping ns) n = fuzzy_grouping ns ++ [(n, w)] := by
            rw [hgs, if_pos hth, hw]
            rfl
          have hmw : ((m, w) : Str × Str) ∈ fuzzy_grouping ns := mem_of_lookup_some hw
          have hww : (fuzzy_grouping ns).lookup w = some w := ihS (m, w) hmw
          have hlookn : (fuzzy_grouping (ns ++ [n])).lookup n = some w := by
            rw [hFG]
            exact groupStep_lookup_self hv' hnkeys
          constructor
          · intro p hp
            rw [hFG, hv'] at hp
            rcases List.mem_append.mp hp with hp | hp
            · rw [hpres p.2 (by rw [ihS p hp]; rfl)]
              exact ihS p hp
            · obtain rfl := List.mem_singleton.mp hp
              show (fuzzy_grouping (ns ++ [n])).lookup w = some w
              rw [hpres w (by rw [hww]; rfl)]
              exact hww
          · intro l₁ n' l₂ hdec hself
            rcases snoc_decomp hdec with ⟨h1, h2, h3⟩ | ⟨l₂', rfl, hd⟩
            · exfalso
              rw [h2, hlookn] at hself
              have hwn : w = n := by injection hself
              have hwmem : w ∈ ns := by
                rw [← hkeys]
                exact mem_keys_of_lookup_some hww
              rw [hwn] at hwmem
              exact hnot hwmem
            · exact hinside l₁ n' l₂' hd hself
        · -- below threshold: n becomes a new representative
          have hv' : groupStep (fuzzy_grouping ns) n = fuzzy_grouping ns ++ [(n, n)] := by
            rw [hgs, if_neg hth]
          have hlookn : (fuzzy_grouping (ns ++ [n])).lookup n = some n := by
            rw [hFG]
            exact groupStep_lookup_self hv' hnkeys
          constructor
          · intro p hp
            rw [hFG, hv'] at hp
            rcases List.mem_append.mp hp with hp | hp
            · rw [hpres p.2 (by rw [ihS p hp]; rfl)]
              exact ihS p hp
            · obtain rfl := List.mem_singleton.mp hp
              exact hlookn
          · intro l₁ n' l₂ hdec hself
            rcases snoc_decomp hdec with ⟨h1, h2, h3⟩ | ⟨l₂', rfl, hd⟩
            · intro k hk
              rw [h2]
              refine le_trans (hall k ?_) (Nat.not_lt.mp hth)
              rw [hkeys]
              exact h1 ▸ hk
            · exact hinside l₁ n' l₂' hd hself

theorem fuzzy_grouping_self_values {names : List Str} (h : names.Nodup) :
    ∀ p ∈ fuzzy_grouping names, (fuzzy_grouping names).lookup p.2 = some p.2 :=
  (fuzzy_grouping_inv h).1

/-- If a self-mapped name `g` (a representative) appears before `n` in the
input and `n` lowercases to the same stripped string as `g`, then `n` is
grouped under `g`: `g` scores 100 against `n` while every key before `g`
scores at most the threshold against `n` (because scoring only depends on the
lowercased stripped text, those scores equal `g`'s own earlier scores), so
`extractOne` returns `g` and the threshold test passes. -/
theorem fuzzy_grouping_lookup_eq_rep {names : List Str} (hnd : names.Nodup)
    (pre mid post : List Str) (g n : Str)
    (hdec : names = pre ++ g :: (mid ++ n :: post))
    (hg : (fuzzy_grouping names).lookup g = some g)
    (hlow : strLower (pyStrip n) = strLower (pyStrip g)) :
    (fuzzy_grouping names).lookup n = some g := by
  have hdec2 : names = (pre ++ g :: mid) ++ n :: post := by rw [hdec]; simp
  have hg_scores : ∀ k ∈ pre, tokenSortScore g k ≤ threshold :=
    (fuzzy_grouping_inv hnd).2 pre g (mid ++ n :: post) hdec hg
  have hscore_inv : ∀ x, tokenSortScore n x = tokenSortScore g x :=
    tokenSortScore_congr_left hlow
  have h100 : tokenSortScore n g = 100 := tokenSortScore_eq_100 n g (fullProcess_congr hlow)
  have hfirst : extractOne tokenSortScore n (pre ++ g :: mid) = some (g, tokenSortScore n g) := by
    apply extractOne_first_max
    · intro k hk
      rw [hscore_inv k, h100]
      exact Nat.lt_of_le_of_lt (hg_scores k hk) (by decide)
    · intro k hk
      rw [h100]
      exact tokenSortScore_le_100 n k
  have hnd2 := hnd
  rw [hdec2] at hnd2
  have hnl : n ∉ (pre ++ g :: mid) := by
    intro hmem
    exact ((List.nodup_append.mp hnd2).2.2 hmem) (List.mem_cons_self _ _)
  have hkeys2 : (fuzzy_grouping (pre ++ g :: mid)).map Prod.fst = pre ++ g :: mid :=
    fuzzy_grouping_keys _
  have hne : fuzzy_grouping (pre ++ g :: mid) ≠ [] := by
    intro h0
    rw [h0] at hkeys2
    exact absurd hkeys2.symm (by simp)
  have hexk : extractOne tokenSortScore n ((fuzzy_grouping (pre ++ g :: mid)).map Prod.fst) =
      some (g, tokenSortScore n g) := by
    rw [hkeys2]
    exact hfirst
  have hgpre : (fuzzy_grouping (pre ++ g :: mid)).lookup g = some g := by
    have hp := @fuzzy_grouping_lookup_front (pre ++ g :: mid) (n :: post) g
      (List.mem_append_right _ (List.mem_cons_self _ _))
    rw [← hdec2, hg] at hp
    exact hp.symm
  have hstep := groupStep_eq_of_extract hne hexk
  rw [hdec2, fuzzy_grouping_lookup_mid (pre ++ g :: mid) n post, hstep,
    if_pos (by rw [h100]; decide),
    lookup_append_of_not_mem (by rw [hkeys2]; exact hnl), hgpre, lookup_singleton_self]
  rfl

/-! ### `firstUniques` (pandas `unique`) facts -/

theorem firstUniquesAux_mem : ∀ (l seen : List Str) (x : Str),
    x ∈ firstUniquesAux l seen ↔ x ∈ l ∧ x ∉ seen := by
  intro l
  induction l with
  | nil => intro seen x; simp [firstUniquesAux]
  | cons y ys ih =>
    intro seen x
    unfold firstUniquesAux
    by_cases hy : y ∈ seen
    · rw [if_pos hy, ih]
      constructor
      · exact fun h => ⟨List.mem_cons_of_mem _ h.1, h.2⟩
      · rintro ⟨h1, h2⟩
        rcases List.mem_cons.mp h1 with rfl | h1
        · exact absurd hy h2
        · exact ⟨h1, h2⟩
    · rw [if_neg hy]
      constructor
      · intro hx
        rcases List.mem_cons.mp hx with rfl | hx
        · exact ⟨List.mem_cons_self _ _, hy⟩
        · obtain ⟨h1, h2⟩ := (ih _ x).mp hx
          exact ⟨List.mem_cons_of_mem _ h1, fun hs => h2 (List.mem_cons_of_mem _ hs)⟩
      · rintro ⟨h1, h2⟩
        rcases List.mem_cons.mp h1 with rfl | h1
        · exact List.mem_cons_self _ _
        · by_cases hxy : x = y
          · subst hxy
            exact List.mem_cons_self _ _
          · refine List.mem_cons_of_mem _ ((ih _ x).mpr ⟨h1, fun hs => ?_⟩)
            rcases List.mem_cons.mp hs with h | h
            · exact hxy h
            · exact h2 h

theorem firstUniques_mem (l : List Str) (x : Str) : x ∈ firstUniques l ↔ x ∈ l := by
  unfold firstUniques
  rw [firstUniquesAux_mem]
  simp

theorem firstUniquesAux_nodup : ∀ (l seen : List Str), (firstUniquesAux l seen).Nodup := by
  intro l
  induction l with
  | nil => intro seen; simp [firstUniquesAux]
  | cons y ys ih =>
    intro seen
    unfold firstUniquesAux
    by_cases hy : y ∈ seen
    · rw [if_pos hy]
      exact ih seen
    · rw [if_neg hy]
      refine List.nodup_cons.mpr ⟨?_, ih _⟩
      intro hmem
      exact ((firstUniquesAux_mem ys (y :: seen) y).mp hmem).2 (List.mem_cons_self _ _)

theorem firstUniques_nodup (l : List Str) : (firstUniques l).Nodup :=
  firstUniquesAux_nodup l []

theorem firstUniquesAux_snoc : ∀ (l seen : List Str) (x : Str),
    firstUniquesAux (l ++ [x]) seen =
      firstUniquesAux l seen ++ (if x ∈ seen ∨ x ∈ l then [] else [x]) := by
  intro l
  induction l with
  | nil =>
    intro seen x
    by_cases hx : x ∈ seen
    · simp [firstUniquesAux, hx]
    · simp [firstUniquesAux, hx]
  | cons y ys ih =>
    intro seen x
    show firstUniquesAux (y :: (ys ++ [x])) seen = _
    unfold firstUniquesAux
    by_cases hy : y ∈ seen
    · rw [if_pos hy, if_pos hy, ih]
      have hcond : (x ∈ seen ∨ x ∈ ys) ↔ (x ∈ seen ∨ x ∈ y :: ys) := by
        constructor
        · rintro (h | h)
          · exact Or.inl h
          · exact Or.inr (List.mem_cons_of_mem _ h)
        · rintro (h | h)
          · exact Or.inl h
          · rcases List.mem_cons.mp h with rfl | h
            · exact Or.inl hy
            · exact Or.inr h
      rw [if_congr hcond rfl rfl]
    · rw [if_neg hy, if_neg hy, ih, List.cons_append]
      have hcond : (x ∈ y :: seen ∨ x ∈ ys) ↔ (x ∈ seen ∨ x ∈ y :: ys) := by
        constructor
        · rintro (h | h)
          · rcases List.mem_cons.mp h with rfl | h
            · exact Or.inr (List.mem_cons_self _ _)
            · exact Or.inl h
          · exact Or.inr (List.mem_cons_of_mem _ h)
        · rintro (h | h)
          · exact Or.inl (List.mem_cons_of_mem _ h)
          · rcases List.mem_cons.mp h with rfl | h
            · exact Or.inl (List.mem_cons_self _ _)
            · exact Or.inr h
      rw [if_congr hcond rfl rfl]

theorem firstUniques_snoc (l : List Str) (x : Str) :
    firstUniques (l ++ [x]) =
      if x ∈ l then firstUniques l else firstUniques l ++ [x] := by
  unfold firstUniques
  rw [firstUniquesAux_snoc]
  by_cases hx : x ∈ l
  · rw [if_pos (Or.inr hx), if_pos hx, List.append_nil]
  · rw [if_neg (by simp [hx]), if_neg hx]

theorem firstUniques_map (f : Str → Str) : ∀ (l : List Str),
    firstUniques (l.map f) = firstUniques ((firstUniques l).map f) := by
  intro l
  induction l using List.reverseRecOn with
  | nil => rfl
  | append_singleton l x ih =>
    have hcond : f x ∈ (firstUniques l).map f ↔ f x ∈ l.map f := by
      constructor
      · intro hm
        rcases List.mem_map.mp hm with ⟨b, hb, hfb⟩
        exact List.mem_map.mpr ⟨b, (firstUniques_mem l b).mp hb, hfb⟩
      · intro hm
        rcases List.mem_map.mp hm with ⟨b, hb, hfb⟩
        exact List.mem_map.mpr ⟨b, (firstUniques_mem l b).mpr hb, hfb⟩
    rw [firstUniques_snoc]
    by_cases hx : x ∈ l
    · rw [if_pos hx, List.map_append, show List.map f [x] = [f x] from rfl,
        firstUniques_snoc, if_pos (List.mem_map_of_mem f hx)]
      exact ih
    · rw [if_neg hx, List.map_append, show List.map f [x] = [f x] from rfl,
        firstUniques_snoc, List.map_append, show List.map f [x] = [f x] from rfl,
        firstUniques_snoc]
      by_cases hfx : f x ∈ l.map f
      · rw [if_pos hfx, if_pos (hcond.mpr hfx)]
        exact ih
      · rw [if_neg hfx, if_neg (fun hm => hfx (hcond.mp hm)), ih]

theorem firstUniquesAux_sublist : ∀ (l seen : List Str), List.Sublist (firstUniquesAux l seen) l := by
  intro l
  induction l with
  | nil => intro seen; simp [firstUniquesAux]
  | cons y ys ih =>
    intro seen
    unfold firstUniquesAux
    by_cases hy : y ∈ seen
    · rw [if_pos hy]
      exact List.Sublist.cons y (ih seen)
    · rw [if_neg hy]
      exact List.Sublist.cons₂ y (ih (y :: seen))

theorem firstUniques_sublist (l : List Str) : List.Sublist (firstUniques l) l :=
  firstUniquesAux_sublist l []

theorem firstUniques_map_eq_filter (g : Str → Str) :
    ∀ (X : List Str), X.Nodup →
      (∀ x ∈ X, g (g x) = g x) →
      (∀ x₁ x x₂, X = x₁ ++ x :: x₂ → g x = x ∨ g x ∈ x₁) →
      firstUniques (X.map g) = X.filter (fun x => g x == x) := by
  intro X
  induction X using List.reverseRecOn with
  | nil => intro _ _ _; rfl
  | append_singleton l x ih =>
    intro hnd hidem hearly
    have hl_nd : l.Nodup := (List.nodup_append.mp hnd).1
    have hlx : x ∉ l := fun hm =>
      ((List.nodup_append.mp hnd).2.2 hm) (List.mem_singleton.mpr rfl)
    have hidem' : ∀ y ∈ l, g (g y) = g y := fun y hy => hidem y (List.mem_append_left _ hy)
    have hearly' : ∀ x₁ y x₂, l = x₁ ++ y :: x₂ → g y = y ∨ g y ∈ x₁ := by
      intro x₁ y x₂ hd
      exact hearly x₁ y (x₂ ++ [x]) (by rw [hd]; simp)
    have hx_early : g x = x ∨ g x ∈ l := hearly l x [] rfl
    rw [List.map_append, show List.map g [x] = [g x] from rfl, firstUniques_snoc,
      List.filter_append]
    by_cases hgx : g x = x
    · have hnotin : g x ∉ l.map g := by
        intro hm
        rcases List.mem_map.mp hm with ⟨b, hb, hfb⟩
        rcases List.append_of_mem hb with ⟨s, t, rfl⟩
        rcases hearly' s b t rfl with h | h
        · rw [h] at hfb
          have hxl : x ∈ s ++ b :: t := by
            rw [← hgx, ← hfb]
            exact hb
          exact hlx hxl
        · have hxl : x ∈ s ++ b :: t := by
            rw [← hgx, ← hfb]
            exact List.mem_append_left _ h
          exact hlx hxl
      rw [if_neg hnotin,
        show List.filter (fun y => g y == y) [x] = [x] from by simp [hgx],
        ih hl_nd hidem' hearly', hgx]
    · have hgxl : g x ∈ l := hx_early.resolve_left hgx
      have hin : g x ∈ l.map g := by
        have hgg : g (g x) = g x :=
          hidem x (List.mem_append_right _ (List.mem_singleton.mpr rfl))
        exact List.mem_map.mpr ⟨g x, hgxl, hgg⟩
      rw [if_pos hin,
        show List.filter (fun y => g y == y) [x] = [] from by simp [hgx],
        List.append_nil, ih hl_nd hidem' hearly']

/-- The canonical name assigned to `n` is either `n` itself or one of the
names processed before `n`. -/
theorem fuzzy_grouping_value_mem_prefix {names : List Str} (hnd : names.Nodup)
    {l₁ : List Str} {n : Str} {l₂ : List Str} {v : Str}
    (hdec : names = l₁ ++ n :: l₂)
    (hv : (fuzzy_grouping names).lookup n = some v) :
    v = n ∨ v ∈ l₁ := by
  subst hdec
  have hnd1 : l₁.Nodup := (List.nodup_append.mp hnd).1
  rw [fuzzy_grouping_lookup_mid l₁ n l₂] at hv
  by_cases hl0 : l₁ = []
  · left
    subst hl0
    have hstep0 : groupStep (fuzzy_grouping []) n = [(n, n)] := rfl
    rw [hstep0, lookup_singleton_self] at hv
    exact (Option.some_inj.mp hv).symm
  · have hkeys1 : (fuzzy_grouping l₁).map Prod.fst = l₁ := fuzzy_grouping_keys l₁
    have hne : fuzzy_grouping l₁ ≠ [] := by
      intro h0
      rw [h0] at hkeys1
      exact hl0 hkeys1.symm
    have hnin : n ∉ l₁ := by
      intro hmem
      exact ((List.nodup_append.mp hnd).2.2 hmem) (List.mem_cons_self _ _)
    have hnkeys1 : n ∉ (fuzzy_grouping l₁).map Prod.fst := by rw [hkeys1]; exact hnin
    rcases hex : extractOne tokenSortScore n ((fuzzy_grouping l₁).map Prod.fst)
      with _ | ⟨m, s⟩
    · rw [extractOne_eq_none_iff, hkeys1] at hex
      exact absurd hex hl0
    · have hgs := groupStep_eq_of_extract hne hex
      obtain ⟨hmk, _, _⟩ := extractOne_spec hex
      by_cases hth : threshold < s
      · right
        obtain ⟨w, hw⟩ := Option.isSome_iff_exists.mp (lookup_isSome_of_mem_keys hmk)
        have hv' : groupStep (fuzzy_grouping l₁) n = fuzzy_grouping l₁ ++ [(n, w)] := by
          rw [hgs, if_pos hth, hw]
          rfl
        rw [groupStep_lookup_self hv' hnkeys1] at hv
        rw [← Option.some_inj.mp hv]
        have hmw : ((m, w) : Str × Str) ∈ fuzzy_grouping l₁ := mem_of_lookup_some hw
        have hww : (fuzzy_grouping l₁).lookup w = some w :=
          fuzzy_grouping_self_values hnd1 (m, w) hmw
        rw [← hkeys1]
        exact mem_keys_of_lookup_some hww
      · left
        have hv' : groupStep (fuzzy_grouping l₁) n = fuzzy_grouping l₁ ++ [(n, n)] := by
          rw [hgs, if_neg hth]
        rw [groupStep_lookup_self hv' hnkeys1] at hv
        exact (Option.some_inj.mp hv).symm

theorem two_mem_decomp {α : Type} {l : List α} {a b : α}
    (ha : a ∈ l) (hb : b ∈ l) (hne : a ≠ b) :
    (∃ l₁ l₂ l₃, l = l₁ ++ a :: (l₂ ++ b :: l₃)) ∨
      (∃ l₁ l₂ l₃, l = l₁ ++ b :: (l₂ ++ a :: l₃)) := by
  rcases List.append_of_mem ha with ⟨s, t, rfl⟩
  rcases List.mem_append.mp hb with hbs | hbt
  · rcases List.append_of_mem hbs with ⟨s₁, s₂, rfl⟩
    right
    exact ⟨s₁, s₂, t, by simp⟩
  · rcases List.mem_cons.mp hbt with h | hbt
    · exact absurd h.symm hne
    · rcases List.append_of_mem hbt with ⟨t₁, t₂, rfl⟩
      left
      exact ⟨s, t₁, t₂, by simp⟩

theorem pair_sublist_decomp {α : Type} {a b : α} : ∀ {l : List α},
    List.Sublist [a, b] l → ∃ l₁ l₂ l₃, l = l₁ ++ a :: (l₂ ++ b :: l₃) := by
  intro l
  induction l with
  | nil => intro h; cases h
  | cons x xs ih =>
    intro h
    cases h with
    | cons _ h' =>
      obtain ⟨l₁, l₂, l₃, hd⟩ := ih h'
      exact ⟨x :: l₁, l₂, l₃, by rw [hd]; rfl⟩
    | cons₂ _ h' =>
      have hbmem : b ∈ xs := List.singleton_sublist.mp h'
      rcases List.append_of_mem hbmem with ⟨s, t, rfl⟩
      exact ⟨[], s, t, rfl⟩

/-- Running the grouper over names that pairwise score at most the threshold
(each later name against each earlier one) maps every name to itself. -/
theorem fuzzy_grouping_identity (ds : List Str)
    (hpw : List.Pairwise (fun a b => tokenSortScore b a ≤ threshold) ds) :
    fuzzy_grouping ds = ds.map (fun n => (n, n)) := by
  induction ds using List.reverseRecOn with
  | nil => rfl
  | append_singleton l x ih =>
    obtain ⟨hpl, _, hRx⟩ := List.pairwise_append.mp hpw
    have hRx' : ∀ a ∈ l, tokenSortScore x a ≤ threshold := fun a ha =>
      hRx a ha x (List.mem_singleton.mpr rfl)
    rw [show fuzzy_grouping (l ++ [x]) = groupStep (fuzzy_grouping l) x from by
      unfold fuzzy_grouping
      rw [List.foldl_append]
      rfl]
    rw [ih hpl]
    cases l with
    | nil => rfl
    | cons y l' =>
      have hkeysd : (((y :: l').map fun n => (n, n)).map Prod.fst) = y :: l' := by
        rw [List.map_map]
        have hfst : (Prod.fst ∘ fun n : Str => (n, n)) = id := rfl
        rw [hfst, List.map_id]
      rcases hex : extractOne tokenSortScore x
          (((y :: l').map fun n => (n, n)).map Prod.fst) with _ | ⟨m, s⟩
      · rw [hkeysd] at hex
        exact absurd hex extractOne_cons_ne_none
      · have hs : s ≤ threshold := by
          obtain ⟨hm, hs_eq, _⟩ := extractOne_spec hex
          rw [hkeysd] at hm
          rw [hs_eq]
          exact hRx' m hm
        rw [groupStep_eq_of_extract (by simp) hex, if_neg (Nat.not_lt.mpr hs),
          List.map_append]
        rfl

/-! ### Pipeline-level facts -/

/-- The Institution Name column of the dimension table. -/
def dimNames (rows : List Row) : List Str :=
  (institutions (processTable rows)).map InstRow.name

theorem processTable_length (rows : List Row) :
    (processTable rows).length = rows.length := List.length_map _ _

theorem teamRows_length (nrows : List NRow) (insts : List InstRow) :
    (teamRows nrows insts).length = nrows.length := List.length_map _ _

theorem processTable_get (rows : List Row) (i : Nat) (h1 : i < rows.length)
    (h2 : i < (processTable rows).length) :
    (processTable rows).get ⟨i, h2⟩ = nrowOf rows (rows.get ⟨i, h1⟩) :=
  List.get_map _

theorem teamRows_get (nrows : List NRow) (insts : List InstRow) (i : Nat)
    (h1 : i < nrows.length) (h2 : i < (teamRows nrows insts).length) :
    (teamRows nrows insts).get ⟨i, h2⟩ = teamRowOf insts (nrows.get ⟨i, h1⟩) :=
  List.get_map _

theorem processTable_map_grouped (rows : List Row) :
    (processTable rows).map NRow.grouped =
      (rows.map Row.institution).map fun n => normText (gmapOf rows n) := by
  unfold processTable
  rw [List.map_map, List.map_map]
  rfl

theorem dropDupRows_map_grouped : ∀ (nrows : List NRow) (seen : List Str),
    (dropDupRows nrows seen).map NRow.grouped =
      firstUniquesAux (nrows.map NRow.grouped) seen := by
  intro nrows
  induction nrows with
  | nil => intro seen; rfl
  | cons r rs ih =>
    intro seen
    unfold dropDupRows
    rw [List.map_cons]
    unfold firstUniquesAux
    by_cases h : r.grouped ∈ seen
    · rw [if_pos h, if_pos h]
      exact ih seen
    · rw [if_neg h, if_neg h, List.map_cons, ih]

theorem institutions_map_name (nrows : List NRow) :
    (institutions nrows).map InstRow.name = firstUniques (nrows.map NRow.grouped) := by
  unfold institutions
  rw [List.map_map]
  have hcomp : (InstRow.name ∘ fun p : Nat × NRow =>
      ({ id := p.1, name := p.2.grouped, city := p.2.city,
         stateProvince := p.2.stateProvince, country := p.2.country } : InstRow)) =
      (NRow.grouped ∘ Prod.snd) := rfl
  rw [hcomp, ← List.map_map, List.enum_map_snd, dropDupRows_map_grouped]
  rfl

theorem institutions_map_id (nrows : List NRow) :
    (institutions nrows).map InstRow.id = List.range (institutions nrows).length := by
  unfold institutions
  rw [List.map_map]
  have hcomp : (InstRow.id ∘ fun p : Nat × NRow =>
      ({ id := p.1, name := p.2.grouped, city := p.2.city,
         stateProvince := p.2.stateProvince, country := p.2.country } : InstRow)) =
      Prod.fst := rfl
  rw [hcomp, List.enum_map_fst, List.length_map, List.enum_length]

theorem dimNames_eq (rows : List Row) :
    dimNames rows =
      firstUniques ((rows.map Row.institution).map fun n => normText (gmapOf rows n)) := by
  unfold dimNames
  rw [institutions_map_name, processTable_map_grouped]

theorem gmapOf_idem (rows : List Row) :
    ∀ x ∈ instNames rows, gmapOf rows (gmapOf rows x) = gmapOf rows x := by
  intro x hx
  obtain ⟨v, hv⟩ := fuzzy_grouping_lookup_total hx
  unfold gmapOf
  rw [hv]
  simp only [Option.getD_some]
  have hnd : (instNames rows).Nodup := firstUniques_nodup _
  have hmem : ((x, v) : Str × Str) ∈ fuzzy_grouping (instNames rows) :=
    mem_of_lookup_some hv
  rw [fuzzy_grouping_self_values hnd (x, v) hmem]
  rfl

theorem gmapOf_early (rows : List Row) :
    ∀ x₁ x x₂, instNames rows = x₁ ++ x :: x₂ →
      gmapOf rows x = x ∨ gmapOf rows x ∈ x₁ := by
  intro x₁ x x₂ hd
  have hnd : (instNames rows).Nodup := firstUniques_nodup _
  have hx : x ∈ instNames rows := by
    rw [hd]
    exact List.mem_append_right _ (List.mem_cons_self _ _)
  obtain ⟨v, hv⟩ := fuzzy_grouping_lookup_total hx
  unfold gmapOf
  rw [hv]
  simp only [Option.getD_some]
  exact fuzzy_grouping_value_mem_prefix hnd hd hv

/-- The names whose cluster representative is themselves. -/
def repNames (rows : List Row) : List Str :=
  (instNames rows).filter fun n => gmapOf rows n == n

theorem dimNames_eq_reps (rows : List Row) :
    dimNames rows = firstUniques ((repNames rows).map normText) := by
  rw [dimNames_eq, firstUniques_map (fun n => normText (gmapOf rows n)) (rows.map Row.institution)]
  have h2 : (firstUniques (rows.map Row.institution)).map (fun n => normText (gmapOf rows n)) =
      ((instNames rows).map (gmapOf rows)).map normText := by
    unfold instNames
    rw [List.map_map]
    rfl
  rw [h2, firstUniques_map normText ((instNames rows).map (gmapOf rows)),
    firstUniques_map_eq_filter (gmapOf rows) (instNames rows)
      (firstUniques_nodup _) (gmapOf_idem rows) (gmapOf_early rows)]
  rfl

theorem repNames_self (rows : List Row) : ∀ n ∈ repNames rows,
    (fuzzy_grouping (instNames rows)).lookup n = some n := by
  intro n hn
  obtain ⟨hmem, hself⟩ := List.mem_filter.mp hn
  obtain ⟨v, hv⟩ := fuzzy_grouping_lookup_total hmem
  have hg : gmapOf rows n = n := by simpa using hself
  unfold gmapOf at hg
  rw [hv] at hg
  simp only [Option.getD_some] at hg
  rw [hv, hg]

theorem pairwise_repNames (rows : List Row) :
    List.Pairwise (fun a b => tokenSortScore b a ≤ threshold) (repNames rows) := by
  rw [List.pairwise_iff_forall_sublist]
  intro a b hsub
  have hsubnames : List.Sublist [a, b] (instNames rows) :=
    hsub.trans (List.filter_sublist _)
  obtain ⟨l₁, l₂, l₃, hd⟩ := pair_sublist_decomp hsubnames
  have hnd : (instNames rows).Nodup := firstUniques_nodup _
  have hb : b ∈ repNames rows := hsub.subset (by simp)
  have hself := repNames_self rows b hb
  have hd2 : instNames rows = (l₁ ++ a :: l₂) ++ b :: l₃ := by rw [hd]; simp
  exact (fuzzy_grouping_inv hnd).2 (l₁ ++ a :: l₂) b l₃ hd2 hself a
    (List.mem_append_right _ (List.mem_cons_self _ _))

theorem pairwise_dimNames (rows : List Row) :
    List.Pairwise (fun a b => tokenSortScore b a ≤ threshold) (dimNames rows) := by
  have h1 : List.Pairwise (fun a b => tokenSortScore b a ≤ threshold)
      ((repNames rows).map normText) := by
    rw [List.pairwise_map]
    exact (pairwise_repNames rows).imp fun hab =>
      le_trans (le_of_eq (tokenSortScore_normText _ _)) hab
  rw [dimNames_eq_reps]
  exact List.Pairwise.sublist (firstUniques_sublist _) h1

theorem dimNames_norm_fixed (rows : List Row) : ∀ d ∈ dimNames rows, normText d = d := by
  intro d hd
  rw [dimNames_eq_reps, firstUniques_mem] at hd
  rcases List.mem_map.mp hd with ⟨r, _, rfl⟩
  exact normText_normText r

theorem firstUniques_of_nodup : ∀ (l : List Str), l.Nodup → firstUniques l = l := by
  intro l
  induction l using List.reverseRecOn with
  | nil => intro _; rfl
  | append_singleton l x ih =>
    intro hnd
    have hl : l.Nodup := (List.nodup_append.mp hnd).1
    have hx : x ∉ l := fun hm =>
      ((List.nodup_append.mp hnd).2.2 hm) (List.mem_singleton.mpr rfl)
    rw [firstUniques_snoc, if_neg hx, ih hl]

theorem dimNames_nodup (rows : List Row) : (dimNames rows).Nodup := by
  rw [dimNames_eq_reps]
  exact firstUniques_nodup _

/-! ### The team join -/

theorem teamRowOf_id_ne_none_iff (insts : List InstRow) (r : NRow) :
    (teamRowOf insts r).institutionId ≠ none ↔ ∃ ir ∈ insts, ir.name = r.institution := by
  unfold teamRowOf
  constructor
  · intro h
    rcases hfind : insts.find? (fun ir => ir.name == r.institution) with _ | ir
    · rw [hfind] at h
      simp at h
    · exact ⟨ir, List.mem_of_find?_eq_some hfind, by simpa using List.find?_some hfind⟩
  · rintro ⟨ir, hmem, hname⟩ h
    have h2 : insts.find? (fun ir => ir.name == r.institution) = none := by
      rcases hfind : insts.find? (fun ir => ir.name == r.institution) with _ | x
      · exact hfind
      · rw [hfind] at h
        simp at h
    exact (List.find?_eq_none.mp h2 ir hmem) (by simpa using hname)

theorem teamRowOf_id_some {insts : List InstRow} {r : NRow} {j : Nat}
    (h : (teamRowOf insts r).institutionId = some j) :
    ∃ ir ∈ insts, ir.id = j ∧ ir.name = r.institution := by
  unfold teamRowOf at h
  rcases hfind : insts.find? (fun ir => ir.name == r.institution) with _ | ir
  · rw [hfind] at h
    simp at h
  · rw [hfind] at h
    simp only [Option.map_some', Option.some.injEq] at h
    exact ⟨ir, List.mem_of_find?_eq_some hfind, h, by simpa using List.find?_some hfind⟩

/-- If the normalized grouped name of `n` differs from `n`'s own normalized
form, then `n`'s normalized form is not an Institution Name of the dimension:
any dimension name equal to it would be a representative with the same
lowercased stripped text, and `n` would have been grouped under exactly that
representative. -/
theorem normText_not_in_dimNames {rows : List Row} {n : Str}
    (hn : n ∈ instNames rows)
    (hdiff : normText (gmapOf rows n) ≠ normText n) :
    normText n ∉ dimNames rows := by
  intro hmem
  rw [dimNames_eq_reps, firstUniques_mem] at hmem
  rcases List.mem_map.mp hmem with ⟨gv, hgv_rep, heq⟩
  have hlow : strLower (pyStrip n) = strLower (pyStrip gv) :=
    lowStrip_of_normText_eq heq.symm
  have hgv_self := repNames_self rows gv hgv_rep
  have hgv_names : gv ∈ instNames rows := (List.mem_filter.mp hgv_rep).1
  have hnd : (instNames rows).Nodup := firstUniques_nodup _
  by_cases heqn : gv = n
  · subst heqn
    have hid : gmapOf rows gv = gv := by
      unfold gmapOf
      rw [hgv_self]
      rfl
    exact hdiff (by rw [hid])
  · rcases two_mem_decomp hgv_names hn heqn with ⟨l₁, l₂, l₃, hd⟩ | ⟨l₁, l₂, l₃, hd⟩
    · have hlook := fuzzy_grouping_lookup_eq_rep hnd l₁ l₂ l₃ gv n hd hgv_self hlow
      have hg : gmapOf rows n = gv := by
        unfold gmapOf
        rw [hlook]
        rfl
      exact hdiff (by rw [hg, heq])
    · have hd2 : instNames rows = (l₁ ++ n :: l₂) ++ gv :: l₃ := by rw [hd]; simp
      have hscore := (fuzzy_grouping_inv hnd).2 (l₁ ++ n :: l₂) gv l₃ hd2 hgv_self n
        (List.mem_append_right _ (List.mem_cons_self _ _))
      have h100 : tokenSortScore gv n = 100 :=
        tokenSortScore_eq_100 gv n (fullProcess_congr hlow.symm)
      rw [h100] at hscore
      exact absurd hscore (by decide)

/-! ### The matcher's candidate set (claim C2) -/

theorem foldl_max_le : ∀ (l : List Nat) (acc b : Nat), (∀ x ∈ l, x ≤ b) → acc ≤ b →
    l.foldl max acc ≤ b := by
  intro l
  induction l with
  | nil => intro acc b _ h; exact h
  | cons x xs ih =>
    intro acc b hall hacc
    rw [List.foldl_cons]
    exact ih _ b (fun y hy => hall y (List.mem_cons_of_mem _ hy))
      (max_le hacc (hall x (List.mem_cons_self _ _)))

theorem le_foldl_max : ∀ (l : List Nat) (acc : Nat),
    acc ≤ l.foldl max acc ∧ ∀ x ∈ l, x ≤ l.foldl max acc := by
  intro l
  induction l with
  | nil => intro acc; exact ⟨le_refl _, by simp⟩
  | cons x xs ih =>
    intro acc
    rw [List.foldl_cons]
    obtain ⟨h1, h2⟩ := ih (max acc x)
    refine ⟨le_trans (le_max_left _ _) h1, ?_⟩
    intro y hy
    rcases List.mem_cons.mp hy with rfl | hy
    · exact le_trans (le_max_right _ _) h1
    · exact h2 y hy

theorem foldl_max_eq {l : List Nat} {s : Nat} (hmem : s ∈ l) (hall : ∀ x ∈ l, x ≤ s) :
    l.foldl max 0 = s :=
  Nat.le_antisymm (foldl_max_le l 0 s hall (Nat.zero_le _))
    ((le_foldl_max l 0).2 s hmem)

theorem find?_first {α : Type} {p : α → Bool} {pre : List α} {m : α} (post : List α)
    (hpre : ∀ k ∈ pre, p k = false) (hm : p m = true) :
    (pre ++ m :: post).find? p = some m := by
  induction pre with
  | nil =>
    rw [List.nil_append]
    exact List.find?_cons_of_pos _ hm
  | cons k pre' ih =>
    rw [List.cons_append, List.find?_cons_of_neg _ (by simp [hpre k (List.mem_cons_self k pre')])]
    exact ih fun k' hk' => hpre k' (List.mem_cons_of_mem _ hk')

theorem foldl_bestStep_first (f : Str → Str → Nat) (q : Str) :
    ∀ (cs : List Str) (best : Str × Nat),
      cs.foldl (bestStep f q) best = best ∨
        ∃ pre m post, cs = pre ++ m :: post ∧
          cs.foldl (bestStep f q) best = (m, f q m) ∧
          (∀ k ∈ pre, f q k < f q m) ∧ best.2 < f q m := by
  intro cs
  induction cs with
  | nil => intro best; exact Or.inl rfl
  | cons ch cs' ih =>
    intro best
    rw [List.foldl_cons]
    by_cases h : best.2 < f q ch
    · rw [show bestStep f q best ch = (ch, f q ch) from by unfold bestStep; rw [if_pos h]]
      rcases ih (ch, f q ch) with heq | ⟨pre, m, post, hdec, hres, hpre, hlt⟩
      · right
        exact ⟨[], ch, cs', rfl, heq, by simp, h⟩
      · right
        refine ⟨ch :: pre, m, post, by rw [hdec]; simp, hres, ?_, lt_trans h hlt⟩
        intro k hk
        rcases List.mem_cons.mp hk with rfl | hk
        · exact hlt
        · exact hpre k hk
    · rw [show bestStep f q best ch = best from by unfold bestStep; rw [if_neg h]]
      rcases ih best with heq | ⟨pre, m, post, hdec, hres, hpre, hlt⟩
      · exact Or.inl heq
      · right
        refine ⟨ch :: pre, m, post, by rw [hdec]; simp, hres, ?_, hlt⟩
        intro k hk
        rcases List.mem_cons.mp hk with rfl | hk
        · exact lt_of_le_of_lt (Nat.not_lt.mp h) hlt
        · exact hpre k hk

theorem extractOne_first_achiever {f : Str → Str → Nat} {q : Str} {cs : List Str}
    {m : Str} {s : Nat} (h : extractOne f q cs = some (m, s)) :
    ∃ pre post, cs = pre ++ m :: post ∧ s = f q m ∧ ∀ k ∈ pre, f q k < s := by
  cases cs with
  | nil => simp [extractOne] at h
  | cons c cs' =>
    simp only [extractOne, Option.some.injEq] at h
    rcases foldl_bestStep_first f q cs' (c, f q c) with heq | ⟨pre, m', post, hdec, hres, hpre, hlt⟩
    · have hcs := heq.symm.trans h
      have hm : c = m := congrArg Prod.fst hcs
      have hs : f q c = s := congrArg Prod.snd hcs
      subst hm
      exact ⟨[], cs', rfl, hs.symm, by simp⟩
    · have hcs := hres.symm.trans h
      have hm : m' = m := congrArg Prod.fst hcs
      have hs : f q m' = s := congrArg Prod.snd hcs
      subst hm
      refine ⟨c :: pre, post, by rw [hdec]; simp, hs.symm, ?_⟩
      intro k hk
      rw [← hs]
      rcases List.mem_cons.mp hk with rfl | hk
      · exact hlt
      · exact hpre k hk

/-- Highest similarity score a name attains against a candidate list (0 when
the list is empty). -/
def bestScoreAmong (n : Str) (cands : List Str) : Nat :=
  (cands.map (tokenSortScore n)).foldl max 0

/-- The earliest candidate attaining the highest similarity score. -/
def firstBest (n : Str) (cands : List Str) : Option Str :=
  cands.find? (fun c => tokenSortScore n c == bestScoreAmong n cands)

/-- One grouper iteration restated in best-match language: score the name
against EVERY previously processed name (the keys of the accumulator), take
the earliest highest-scoring one, and merge to that match's canonical
representative exactly when the best score strictly exceeds the threshold. -/
def amendedStep (acc : List (Str × Str)) (n : Str) : List (Str × Str) :=
  match firstBest n (acc.map Prod.fst) with
  | none => acc ++ [(n, n)]
  | some m =>
    if threshold < bestScoreAmong n (acc.map Prod.fst) then
      acc ++ [(n, (acc.lookup m).getD m)]
    else acc ++ [(n, n)]

/-- The grouper restated in best-match language (candidates = all previously
processed names). -/
def amendedGrouping (names : List Str) : List (Str × Str) :=
  names.foldl amendedStep []

/-- One grouper iteration as the claim words it: the candidate set is the
existing REPRESENTATIVES only (the distinct values of the accumulator), and a
merged name maps directly to the selected representative. -/
def specRepsStep (acc : List (Str × Str)) (n : Str) : List (Str × Str) :=
  match firstBest n (firstUniques (acc.map Prod.snd)) with
  | none => acc ++ [(n, n)]
  | some m =>
    if threshold < bestScoreAmong n (firstUniques (acc.map Prod.snd)) then
      acc ++ [(n, m)]
    else acc ++ [(n, n)]

/-- The grouper as the claim words it (candidates = existing representatives). -/
def specGrouping (names : List Str) : List (Str × Str) :=
  names.foldl specRepsStep []

theorem amendedStep_eq_groupStep (acc : List (Str × Str)) (n : Str) :
    amendedStep acc n = groupStep acc n := by
  cases acc with
  | nil => rfl
  | cons p acc' =>
    rcases hex : extractOne tokenSortScore n ((p :: acc').map Prod.fst) with _ | ⟨m, s⟩
    · exact absurd hex (by rw [List.map_cons]; exact extractOne_cons_ne_none)
    · obtain ⟨hmk, hs, hall⟩ := extractOne_spec hex
      obtain ⟨pre, post, hdec, _, hpre⟩ := extractOne_first_achiever hex
      have hbest : bestScoreAmong n ((p :: acc').map Prod.fst) = s := by
        unfold bestScoreAmong
        apply foldl_max_eq
        · exact List.mem_map.mpr ⟨m, hmk, hs.symm⟩
        · intro x hx
          rcases List.mem_map.mp hx with ⟨k, hk, rfl⟩
          exact hall k hk
      have hfb : firstBest n ((p :: acc').map Prod.fst) = some m := by
        unfold firstBest
        rw [hdec]
        apply find?_first
        · intro k hk
          simp only [beq_eq_false_iff_ne, ne_eq]
          rw [← hdec, hbest]
          exact Nat.ne_of_lt (hpre k hk)
        · rw [← hdec, hbest]
          simp [hs]
      unfold amendedStep
      rw [hfb, hbest, groupStep_eq_of_extract (by simp) hex]

/-- The grouper is exactly its best-match restatement. -/
theorem fuzzy_grouping_eq_amended (names : List Str) :
    fuzzy_grouping names = amendedGrouping names := by
  unfold fuzzy_grouping amendedGrouping
  have h : groupStep = amendedStep :=
    funext fun acc => funext fun n => (amendedStep_eq_groupStep acc n).symm
  rw [h]

/-! ### Concrete tables settling the join-key and candidate-set claims -/

def c2A : Str := "abcdefghij".toList

def c2B : Str := "abcdefghijkl".toList

def c2C : Str := "abcdefghijklmn".toList

def c1Row1 : Row :=
  { institution := "Harvard University".toList, city := "Cambridge".toList
    stateProvince := some "MA".toList, country := "USA".toList
    teamNumber := "1".toList, advisor := "Smith".toList
    problem := "A".toList, ranking := "1".toList }

def c1Row2 : Row :=
  { institution := "University Harvard".toList, city := "Cambridge".toList
    stateProvince := some "MA".toList, country := "USA".toList
    teamNumber := "2".toList, advisor := "Jones".toList
    problem := "B".toList, ranking := "2".toList }

def c1Csv : Csv := { columns := requiredColumns, rows := [c1Row1, c1Row2] }

/-- C1 counterexample computation: on a table whose two rows name the same
institution with the words swapped ("Harvard University" / "University
Harvard"), the grouper merges the second name into the first, both rows carry
the Grouped Institution "Harvard university" -- the one name of the
institution dimension -- yet the second team row's Institution ID is missing,
because the join key is the normalized raw Institution column and not the
Grouped Institution column the claim describes. -/
theorem C1_join_uses_raw_not_grouped :
    save_csv c1Csv = SaveResult.success
      [{ id := 0, name := "Harvard university".toList, city := "Cambridge".toList,
         stateProvince := "Massachusetts".toList, country := "USA".toList }]
      [{ teamNumber := "1".toList, advisor := "Smith".toList, problem := "A".toList,
         ranking := "1".toList, institutionId := some 0 },
       { teamNumber := "2".toList, advisor := "Jones".toList, problem := "B".toList,
         ranking := "2".toList, institutionId := none }] ∧
    (processTable c1Csv.rows).map NRow.grouped =
      ["Harvard university".toList, "Harvard university".toList] := by
  constructor
  · decide
  · decide

/-- C2 counterexample: with the three names "abcdefghij" (A), "abcdefghijkl"
(B), "abcdefghijklmn" (C) in order, B merges into A, so A is the only
representative when C is processed.  C scores 83 against the representative A
-- below the threshold -- so a grouper matching against representatives only
(`specGrouping`, the claim's wording) makes C a new representative; the
actual grouper also scores C against the merged name B (92, its best match)
and therefore maps C to A. -/
theorem C2_counterexample_candidates :
    tokenSortScore c2C c2A ≤ threshold ∧
    (specGrouping [c2A, c2B, c2C]).lookup c2C = some c2C ∧
    (fuzzy_grouping [c2A, c2B, c2C]).lookup c2C = some c2A := by
  refine ⟨by decide, by decide, by decide⟩

/-- C2 (corrected): the grouper processes the names in order; scores lie in
0..100; each new name is scored against EVERY previously processed name --
the keys of the accumulated mapping, not only the representatives -- the
earliest highest-scoring match is selected, and the name maps to that match's
canonical representative exactly when the best score strictly exceeds 87,
otherwise to itself as a new representative (`amendedGrouping` restates the
step in exactly those words). -/
theorem C2_grouper_matches_all_processed_names (names : List Str) :
    fuzzy_grouping names = amendedGrouping names ∧
    ∀ a b : Str, tokenSortScore a b ≤ 100 :=
  ⟨fuzzy_grouping_eq_amended names, fun a b => tokenSortScore_le_100 a b⟩

/-- C3: a team row's Institution ID is non-null exactly when its
trimmed-and-capitalized raw Institution string equals an Institution Name of
the dimension; in particular a row whose raw name the grouper merged into a
representative normalizing differently from the name itself always gets a
null ID, because the join key is the normalized raw Institution column, not
the Grouped Institution column. -/
theorem C3_join_key_is_raw_institution (rows : List Row) (r : Row) (hr : r ∈ rows) :
    ((teamRowOf (institutions (processTable rows)) (nrowOf rows r)).institutionId ≠ none ↔
      normText r.institution ∈ dimNames rows) ∧
    (normText (gmapOf rows r.institution) ≠ normText r.institution →
      (teamRowOf (institutions (processTable rows)) (nrowOf rows r)).institutionId = none) := by
  have hiff := teamRowOf_id_ne_none_iff (institutions (processTable rows)) (nrowOf rows r)
  have hinst : (nrowOf rows r).institution = normText r.institution := rfl
  have hdim : ∀ ir ∈ institutions (processTable rows), ir.name = normText r.institution →
      normText r.institution ∈ dimNames rows := by
    intro ir hmem hname
    unfold dimNames
    exact hname ▸ List.mem_map.mpr ⟨ir, hmem, rfl⟩
  have hmain : (teamRowOf (institutions (processTable rows)) (nrowOf rows r)).institutionId ≠
      none ↔ normText r.institution ∈ dimNames rows := by
    rw [hiff]
    constructor
    · rintro ⟨ir, hmem, hname⟩
      exact hdim ir hmem (by rw [← hinst]; exact hname)
    · intro hmem
      unfold dimNames at hmem
      rcases List.mem_map.mp hmem with ⟨ir, hmem2, hname⟩
      exact ⟨ir, hmem2, by rw [hinst, hname]⟩
  refine ⟨hmain, ?_⟩
  intro hdiff
  by_contra hne
  have hn : r.institution ∈ instNames rows := by
    unfold instNames
    rw [firstUniques_mem]
    exact List.mem_map.mpr ⟨r, hr, rfl⟩
  exact normText_not_in_dimNames hn hdiff (hmain.mp hne)

theorem C3_join_key_witness :
    c1Row2 ∈ [c1Row1, c1Row2] ∧
    (((teamRowOf (institutions (processTable [c1Row1, c1Row2]))
        (nrowOf [c1Row1, c1Row2] c1Row2)).institutionId ≠ none ↔
      normText c1Row2.institution ∈ dimNames [c1Row1, c1Row2]) ∧
    (normText (gmapOf [c1Row1, c1Row2] c1Row2.institution) ≠ normText c1Row2.institution →
      (teamRowOf (institutions (processTable [c1Row1, c1Row2]))
        (nrowOf [c1Row1, c1Row2] c1Row2)).institutionId = none)) :=
  ⟨by decide, C3_join_key_is_raw_institution [c1Row1, c1Row2] c1Row2 (by decide)⟩

/-- C4: the institution dimension holds exactly one row per distinct
canonical (grouped) name, in first-appearance order; its Institution IDs are
exactly the dense range 0..n-1 with no gaps or duplicates; and every team
row's Institution ID is either null or identifies exactly one dimension
row. -/
theorem C4_dimension_dense_ids (rows : List Row) :
    (institutions (processTable rows)).map InstRow.name =
      firstUniques ((processTable rows).map NRow.grouped) ∧
    ((institutions (processTable rows)).map InstRow.name).Nodup ∧
    (institutions (processTable rows)).map InstRow.id =
      List.range (institutions (processTable rows)).length ∧
    ∀ t ∈ teamRows (processTable rows) (institutions (processTable rows)),
      t.institutionId = none ∨
        ∃ j, t.institutionId = some j ∧
          ∃! ir, ir ∈ institutions (processTable rows) ∧ ir.id = j := by
  refine ⟨institutions_map_name _, ?_, institutions_map_id _, ?_⟩
  · rw [institutions_map_name]
    exact firstUniques_nodup _
  · intro t ht
    rcases List.mem_map.mp ht with ⟨r, hr, rfl⟩
    rcases hid : (teamRowOf (institutions (processTable rows)) r).institutionId with _ | j
    · exact Or.inl rfl
    · right
      refine ⟨j, rfl, ?_⟩
      obtain ⟨ir, hmem, hirid, _⟩ := teamRowOf_id_some hid
      refine ⟨ir, ⟨hmem, hirid⟩, ?_⟩
      rintro ir' ⟨hmem', hid'⟩
      have hnd : ((institutions (processTable rows)).map InstRow.id).Nodup := by
        rw [institutions_map_id]
        exact List.nodup_range _
      exact List.inj_on_of_nodup_map hnd hmem' hmem (by rw [hid', hirid])

/-- C5: on distinct input names the grouper's mapping has exactly the input
names as keys (so with distinct names each maps to exactly one
representative), a lookup succeeds for every input name (the grouper never
fails), and every value of the mapping -- every canonical representative --
maps to itself. -/
theorem C5_grouper_total_reps_fixed (names : List Str) (hnd : names.Nodup) :
    (fuzzy_grouping names).map Prod.fst = names ∧
    (∀ k ∈ names, ∃ v, (fuzzy_grouping names).lookup k = some v) ∧
    ∀ p ∈ fuzzy_grouping names, (fuzzy_grouping names).lookup p.2 = some p.2 :=
  ⟨fuzzy_grouping_keys names, fun _ hk => fuzzy_grouping_lookup_total hk,
    fuzzy_grouping_self_values hnd⟩

theorem C5_grouper_witness :
    [c2A, c2B, c2C].Nodup ∧
    ((fuzzy_grouping [c2A, c2B, c2C]).map Prod.fst = [c2A, c2B, c2C] ∧
     (∀ k ∈ [c2A, c2B, c2C], ∃ v, (fuzzy_grouping [c2A, c2B, c2C]).lookup k = some v) ∧
     ∀ p ∈ fuzzy_grouping [c2A, c2B, c2C],
       (fuzzy_grouping [c2A, c2B, c2C]).lookup p.2 = some p.2) :=
  ⟨by decide, C5_grouper_total_reps_fixed [c2A, c2B, c2C] (by decide)⟩

def c6Csv : Csv :=
  { columns := ["Institution", "City", "State/Province", "Country", "Team Number",
                "Advisor", "Problem"]
    rows := [] }

/-- C6: when at least one required column is absent, `save_csv` stops at
validation -- producing no output tables -- and reports exactly the set of
missing required column names. -/
theorem C6_missing_columns_abort (c : Csv) (h : ∃ col ∈ requiredColumns, col ∉ c.columns) :
    ∃ missing, save_csv c = SaveResult.missingColumns missing ∧
      ∀ col, col ∈ missing ↔ (col ∈ requiredColumns ∧ col ∉ c.columns) := by
  have hmem : ∀ col, (col ∈ requiredColumns.filter fun col => !(c.columns.contains col)) ↔
      (col ∈ requiredColumns ∧ col ∉ c.columns) := by
    intro col
    rw [List.mem_filter]
    simp
  have hne : (requiredColumns.filter fun col => !(c.columns.contains col)).isEmpty = false := by
    rcases h with ⟨col, hc1, hc2⟩
    rcases hl : requiredColumns.filter fun col => !(c.columns.contains col) with _ | ⟨x, xs⟩
    · exact absurd ((hmem col).mpr ⟨hc1, hc2⟩) (by rw [hl]; exact List.not_mem_nil _)
    · rfl
  exact ⟨_, by simp [save_csv, hne]; exact h, hmem⟩

theorem C6_missing_columns_witness :
    (∃ col ∈ requiredColumns, col ∉ c6Csv.columns) ∧
    ∃ missing, save_csv c6Csv = SaveResult.missingColumns missing ∧
      ∀ col, col ∈ missing ↔ (col ∈ requiredColumns ∧ col ∉ c6Csv.columns) :=
  ⟨⟨"Ranking", by decide, by decide⟩,
    C6_missing_columns_abort c6Csv ⟨"Ranking", by decide, by decide⟩⟩

/-- C7: re-running the pipeline on its own institution output changes
nothing: grouping the dimension's names again maps every name to itself (no
further merge), normalization leaves every dimension name fixed, and
deduplication keeps every row (the names are pairwise distinct). -/
theorem C7_rerun_identity (rows : List Row) :
    fuzzy_grouping (dimNames rows) = (dimNames rows).map (fun n => (n, n)) ∧
    (dimNames rows).map normText = dimNames rows ∧
    firstUniques (dimNames rows) = dimNames rows := by
  refine ⟨fuzzy_grouping_identity _ (pairwise_dimNames rows), ?_,
    firstUniques_of_nodup _ (dimNames_nodup rows)⟩
  have h1 : (dimNames rows).map normText = (dimNames rows).map id :=
    List.map_congr_left fun d hd => dimNames_norm_fixed rows d hd
  rw [h1, List.map_id]

theorem state_lookup_key_len {k : Str} {v : Str}
    (h : state_abbreviations.lookup k = some v) : k.length = 2 := by
  have hk : k ∈ state_abbreviations.map Prod.fst := mem_keys_of_lookup_some h
  have hall : (state_abbreviations.map Prod.fst).all (fun k => k.length == 2) = true := by
    decide
  have h2 := List.all_eq_true.mp hall _ hk
  exact eq_of_beq h2

/-- C8: State/Province handling -- the cell is trimmed; when its uppercasing
is a key of the fixed state-abbreviation table (all keys have exactly two
characters, so the code's 2-character test then holds) it becomes the full
state name, otherwise the trimmed original-case text passes through;
concretely "ca" becomes "California" and " Xx " stays "Xx". -/
theorem C8_state_abbreviation_expansion (s : Str) :
    (∀ full, state_abbreviations.lookup (strUpper (pyStrip s)) = some full →
      normalizeState s = full) ∧
    (state_abbreviations.lookup (strUpper (pyStrip s)) = none →
      normalizeState s = pyStrip s) ∧
    normalizeState "ca".toList = "California".toList ∧
    normalizeState " Xx ".toList = "Xx".toList := by
  refine ⟨?_, ?_, by decide, by decide⟩
  · intro full hl
    have hlen : (pyStrip s).length = 2 := by
      have := state_lookup_key_len hl
      rw [strUpper, List.length_map] at this
      exact this
    simp only [normalizeState]
    rw [hl]
    show (if (pyStrip s).length = 2 then full else pyStrip s) = full
    rw [if_pos hlen]
  · intro hl
    simp only [normalizeState]
    rw [hl]

theorem C8_expansion_witness :
    state_abbreviations.lookup (strUpper (pyStrip "ca".toList)) = some "California".toList ∧
    normalizeState "ca".toList = "California".toList :=
  ⟨by decide, (C8_state_abbreviation_expansion "ca".toList).1 "California".toList (by decide)⟩

/-- C9: a missing State/Province cell is filled with the literal "Unknown"
before the abbreviation/capitalization logic runs on it; "Unknown" is not a
two-letter abbreviation and carries no surrounding whitespace, so the cell
comes out exactly "Unknown". -/
theorem C9_missing_state_unknown (rows : List Row) (r : Row) (h : r.stateProvince = none) :
    (nrowOf rows r).stateProvince = normalizeState "Unknown".toList ∧
    (nrowOf rows r).stateProvince = "Unknown".toList := by
  have hs : (nrowOf rows r).stateProvince =
      normalizeState (r.stateProvince.getD "Unknown".toList) := rfl
  rw [hs, h]
  exact ⟨rfl, by decide⟩

def c9Row : Row :=
  { institution := "MIT".toList, city := "Cambridge".toList, stateProvince := none
    country := "USA".toList, teamNumber := "3".toList, advisor := "Lee".toList
    problem := "A".toList, ranking := "5".toList }

theorem C9_missing_state_witness :
    c9Row.stateProvince = none ∧
    ((nrowOf [c9Row] c9Row).stateProvince = normalizeState "Unknown".toList ∧
     (nrowOf [c9Row] c9Row).stateProvince = "Unknown".toList) :=
  ⟨rfl, C9_missing_state_unknown [c9Row] c9Row rfl⟩

theorem dropDupRows_subset : ∀ (nrows : List NRow) (seen : List Str) (x : NRow),
    x ∈ dropDupRows nrows seen → x ∈ nrows := by
  intro nrows
  induction nrows with
  | nil => intro seen x h; exact absurd h (List.not_mem_nil _)
  | cons r rs ih =>
    intro seen x h
    by_cases hg : r.grouped ∈ seen
    · rw [dropDupRows, if_pos hg] at h
      exact List.mem_cons_of_mem _ (ih _ _ h)
    · rw [dropDupRows, if_neg hg] at h
      rcases List.mem_cons.mp h with rfl | h
      · exact List.mem_cons_self _ _
      · exact List.mem_cons_of_mem _ (ih _ _ h)

theorem snd_mem_of_mem_enumFrom {α : Type} : ∀ (l : List α) (k : Nat) (p : Nat × α),
    p ∈ l.enumFrom k → p.2 ∈ l := by
  intro l
  induction l with
  | nil => intro k p h; exact absurd h (List.not_mem_nil _)
  | cons x xs ih =>
    intro k p h
    rw [List.enumFrom] at h
    rcases List.mem_cons.mp h with rfl | h
    · exact List.mem_cons_self _ _
    · exact List.mem_cons_of_mem _ (ih _ _ h)

theorem institutions_row_source {nrows : List NRow} {ir : InstRow}
    (h : ir ∈ institutions nrows) :
    ∃ nr2 ∈ nrows, ir.name = nr2.grouped ∧ ir.city = nr2.city ∧
      ir.stateProvince = nr2.stateProvince ∧ ir.country = nr2.country := by
  unfold institutions at h
  rcases List.mem_map.mp h with ⟨p, hp, rfl⟩
  have h2 : p.2 ∈ dropDupRows nrows [] := snd_mem_of_mem_enumFrom _ 0 _ hp
  exact ⟨p.2, dropDupRows_subset _ _ _ h2, rfl, rfl, rfl, rfl⟩

/-- C10: normalization never touches the Country column -- each processed
row and each institution row carries a Country value verbatim from the input
-- while every other text column of a processed row is trimmed and
capitalized (State/Province via its own fill-and-expand rule). -/
theorem C10_country_untouched (rows : List Row) :
    (∀ r ∈ rows,
      (nrowOf rows r).country = r.country ∧
      (nrowOf rows r).institution = normText r.institution ∧
      (nrowOf rows r).grouped = normText (gmapOf rows r.institution) ∧
      (nrowOf rows r).city = normText r.city ∧
      (nrowOf rows r).stateProvince =
        normalizeState (r.stateProvince.getD "Unknown".toList) ∧
      (nrowOf rows r).teamNumber = normText r.teamNumber ∧
      (nrowOf rows r).advisor = normText r.advisor ∧
      (nrowOf rows r).problem = normText r.problem ∧
      (nrowOf rows r).ranking = normText r.ranking) ∧
    (processTable rows).map NRow.country = rows.map Row.country ∧
    ∀ ir ∈ institutions (processTable rows), ∃ r2 ∈ rows, ir.country = r2.country := by
  refine ⟨fun r _ => ⟨rfl, rfl, rfl, rfl, rfl, rfl, rfl, rfl, rfl⟩, ?_, ?_⟩
  · unfold processTable
    rw [List.map_map]
    rfl
  · intro ir hir
    rcases institutions_row_source hir with ⟨nr2, hmem, _, _, _, hc⟩
    rcases List.mem_map.mp hmem with ⟨r2, hr2, rfl⟩
    exact ⟨r2, hr2, hc⟩
